import Mathlib

/-
Verification of the BiasAwareUserCF pipeline (src/BiasAwareUserCF/main.cpp).

The C++ program is a single batch pipeline over exact arithmetic on doubles;
we embed it shallowly over ℚ.  `unordered_map` is modelled as an association
list whose iteration order is the (deterministic) first-insertion order — the
C++ hash order is unspecified, so any fixed order is the faithful stand-in.
`std::priority_queue<Similarity>` (a max-heap on `value` via `operator<`,
backed by libstdc++ `push_heap` / `pop_heap` on a vector) is embedded as the
array-backed binary heap with the exact libstdc++ sift-up / adjust-heap
index arithmetic.  The two transcendental routines used by the similarity
stage, `sqrt` and `pow(·, AMP_FACTOR)`, are not exactly representable on ℚ
and are taken as parameters (`sqrtFn`, `powFn`) of the similarity stage; no
theorem below depends on their values.
-/

set_option maxHeartbeats 1000000
set_option maxRecDepth 100000

/-! ## Association lists (embedding of `std::unordered_map`) -/

/-- First-occurrence lookup, the embedding of `unordered_map::find`. -/
def alookup {κ α : Type} [DecidableEq κ] : List (κ × α) → κ → Option α
  | [], _ => none
  | (k, v) :: m, q => if k = q then some v else alookup m q

/-- Modify the value at key `q` in place (first occurrence); if the key is
absent, append `(q, f d)` — the embedding of `operator[]` (which
value-initializes a fresh slot with `d`) followed by a mutation `f`. -/
def alModify {κ α : Type} [DecidableEq κ] (f : α → α) (d : α) :
    List (κ × α) → κ → List (κ × α)
  | [], q => [(q, f d)]
  | (k, v) :: m, q => if k = q then (k, f v) :: m else (k, v) :: alModify f d m q

/-- Assignment `m[q] = v` (insert-or-overwrite). -/
def alSet {κ α : Type} [DecidableEq κ] (m : List (κ × α)) (q : κ) (v : α) :
    List (κ × α) :=
  alModify (fun _ => v) v m q

/-- Bare `operator[]` read: returns the stored value (or the freshly
default-initialized `d`) together with the possibly-extended map. -/
def alGetIns {κ α : Type} [DecidableEq κ] (m : List (κ × α)) (q : κ) (d : α) :
    α × List (κ × α) :=
  match alookup m q with
  | some v => (v, m)
  | none => (d, m ++ [(q, d)])

/-- `operator[]` read where only the default-insertion side effect matters. -/
def ensure {κ α : Type} [DecidableEq κ] (m : List (κ × α)) (q : κ) (d : α) :
    List (κ × α) :=
  (alGetIns m q d).2

/-- Read with default `0`, the value `operator[]` yields on a ℚ-valued map. -/
def aget0 (m : List (Nat × ℚ)) (q : Nat) : ℚ :=
  (alookup m q).getD 0

theorem alookup_alModify_self {κ α : Type} [DecidableEq κ]
    (f : α → α) (d : α) (m : List (κ × α)) (q : κ) :
    alookup (alModify f d m q) q = some (f ((alookup m q).getD d)) := by
  induction m with
  | nil => simp [alModify, alookup]
  | cons p m ih =>
    obtain ⟨k, v⟩ := p
    by_cases hk : k = q
    · simp [alModify, alookup, hk]
    · simp [alModify, alookup, hk, ih]

theorem alookup_alModify_ne {κ α : Type} [DecidableEq κ]
    (f : α → α) (d : α) (m : List (κ × α)) (q w : κ) (hw : w ≠ q) :
    alookup (alModify f d m q) w = alookup m w := by
  induction m with
  | nil => simp [alModify, alookup, Ne.symm hw]
  | cons p m ih =>
    obtain ⟨k, v⟩ := p
    by_cases hk : k = q
    · subst hk
      simp [alModify, alookup, Ne.symm hw]
    · by_cases hkw : k = w
      · subst hkw
        simp [alModify, alookup, hk]
      · simp [alModify, alookup, hk, hkw, ih]

theorem alookup_mem {κ α : Type} [DecidableEq κ]
    {m : List (κ × α)} {q : κ} {v : α} (h : alookup m q = some v) : (q, v) ∈ m := by
  induction m with
  | nil => simp [alookup] at h
  | cons p m ih =>
    obtain ⟨k, w⟩ := p
    by_cases hk : k = q
    · subst hk
      simp [alookup] at h
      simp [h]
    · simp [alookup, hk] at h
      exact List.mem_cons_of_mem _ (ih h)

theorem mem_alModify {κ α : Type} [DecidableEq κ]
    (f : α → α) (d : α) {m : List (κ × α)} {q : κ} {p : κ × α}
    (h : p ∈ alModify f d m q) :
    p ∈ m ∨ ∃ w, p = (q, f w) ∧ (w = d ∨ (q, w) ∈ m) := by
  induction m with
  | nil =>
    simp [alModify] at h
    exact Or.inr ⟨d, by simp [h]⟩
  | cons e m ih =>
    obtain ⟨k, v⟩ := e
    by_cases hk : k = q
    · subst hk
      simp [alModify] at h
      rcases h with h | h
      · exact Or.inr ⟨v, by simp [h]⟩
      · exact Or.inl (List.mem_cons_of_mem _ h)
    · simp [alModify, hk] at h
      rcases h with h | h
      · exact Or.inl (by simp [h])
      · rcases ih h with h1 | ⟨w, hw1, hw2⟩
        · exact Or.inl (List.mem_cons_of_mem _ h1)
        · refine Or.inr ⟨w, hw1, ?_⟩
          rcases hw2 with h2 | h2
          · exact Or.inl h2
          · exact Or.inr (List.mem_cons_of_mem _ h2)

theorem alookup_eq_none_of_not_memKeys {κ α : Type} [DecidableEq κ]
    {m : List (κ × α)} {q : κ} (h : q ∉ m.map Prod.fst) : alookup m q = none := by
  induction m with
  | nil => rfl
  | cons p m ih =>
    obtain ⟨k, v⟩ := p
    have hk : ¬k = q := by
      intro e
      exact h (by simp [e])
    have hm : q ∉ m.map Prod.fst := by
      intro e
      exact h (by simp [e])
    simp [alookup, hk, ih hm]

theorem alookup_isSome_iff_memKeys {κ α : Type} [DecidableEq κ]
    (m : List (κ × α)) (q : κ) :
    (alookup m q).isSome = true ↔ q ∈ m.map Prod.fst := by
  induction m with
  | nil => simp [alookup]
  | cons p m ih =>
    obtain ⟨k, v⟩ := p
    by_cases hk : k = q
    · subst hk
      simp [alookup]
    · rw [show ((k, v) :: m).map Prod.fst = k :: m.map Prod.fst from rfl]
      simp [alookup, hk, ih, Ne.symm hk]

theorem alGetIns_of_isSome {κ α : Type} [DecidableEq κ]
    {m : List (κ × α)} {q : κ} (d : α) (h : (alookup m q).isSome = true) :
    alGetIns m q d = ((alookup m q).getD d, m) := by
  unfold alGetIns
  cases hm : alookup m q with
  | none => rw [hm] at h; simp at h
  | some v => simp

/-! ## The `Similarity` struct and the `std::priority_queue` embedding -/

/-- `struct Similarity { int userB; double value; }`.  `operator<` compares
`value` only, so `priority_queue<Similarity>` is a max-heap on `value`. -/
structure Similarity where
  userB : Nat
  value : ℚ
deriving DecidableEq, Repr

/-- Placeholder element for out-of-range reads (never reached on the real
index arithmetic). -/
def simDflt : Similarity := ⟨0, 0⟩

-- ------------------- TUNABLE PARAMETERS -------------------
/-- `static const int K = 190` — keep top-K neighbors. -/
def K : Nat := 190

/-- `static const double SHRINK = 10.0` — significance shrinkage. -/
def SHRINK : ℚ := 10

/-- `static const int NUM_ITERS = 8` — bias refinement passes. -/
def NUM_ITERS : Nat := 8

/-- `static const double ALPHA = 0.01` — learning rate. -/
def ALPHA : ℚ := 1 / 100

/-- `static const double REG = 0.02` — regularization. -/
def REG : ℚ := 1 / 50

/-- libstdc++ `__push_heap`: percolate `v` up from `hole` toward the root,
moving smaller parents down.  Comparison is the `Similarity::operator<`. -/
def siftUp : Nat → List Similarity → Nat → Similarity → List Similarity
  | 0, l, hole, v => l.set hole v
  | fuel + 1, l, hole, v =>
    if hole = 0 then l.set hole v
    else
      let parent := (hole - 1) / 2
      if (l.getD parent simDflt).value < v.value then
        siftUp fuel (l.set hole (l.getD parent simDflt)) parent v
      else l.set hole v

/-- `priority_queue::push`: `push_back` then `push_heap`. -/
def heapPush (l : List Similarity) (c : Similarity) : List Similarity :=
  siftUp l.length (l ++ [c]) l.length c

/-- The loop of libstdc++ `__adjust_heap`: move the hole down along the
larger-child path.  Returns the list, the hole index and `secondChild`. -/
def adjustLoop : Nat → List Similarity → Nat → Nat → Nat →
    List Similarity × Nat × Nat
  | 0, l, hole, sc, _ => (l, hole, sc)
  | fuel + 1, l, hole, sc, len =>
    if sc < (len - 1) / 2 then
      let sc1 := 2 * (sc + 1)
      let sc2 :=
        if (l.getD sc1 simDflt).value < (l.getD (sc1 - 1) simDflt).value then
          sc1 - 1
        else sc1
      adjustLoop fuel (l.set hole (l.getD sc2 simDflt)) sc2 sc2 len
    else (l, hole, sc)

/-- libstdc++ `__adjust_heap` on the prefix of length `len`: percolate the
hole at the root to a leaf, fix up the odd-tail case, then sift `v` up. -/
def adjustHeap (l : List Similarity) (len : Nat) (v : Similarity) :
    List Similarity :=
  let t := adjustLoop len l 0 0 len
  let l1 := t.1
  let hole := t.2.1
  let sc := t.2.2
  if len % 2 = 0 ∧ sc = (len - 2) / 2 then
    let sc1 := 2 * (sc + 1)
    siftUp len (l1.set hole (l1.getD (sc1 - 1) simDflt)) (sc1 - 1) v
  else
    siftUp len l1 hole v

/-- `priority_queue::pop`: `pop_heap` (which removes the root — the MAXIMUM
under `operator<` — and re-heapifies via `__adjust_heap` with the old last
element) followed by `pop_back`. -/
def heapPop (l : List Similarity) : List Similarity :=
  match l with
  | [] => []
  | [_] => []
  | _ =>
    adjustHeap l.dropLast (l.length - 1) (l.getD (l.length - 1) simDflt)

/-- Lines 211-225: `pq.push(c); if (pq.size() > K) pq.pop();`. -/
def boundedInsert (h : List Similarity) (c : Similarity) : List Similarity :=
  let h1 := heapPush h c
  if K < h1.length then heapPop h1 else h1

/-- `pq.top()` — the front of the heap array. -/
def heapTop (l : List Similarity) : Similarity :=
  l.getD 0 simDflt

/-- Lines 252-272 iterate a copy of the queue by `top`/`pop` until empty. -/
def drainAux : Nat → List Similarity → List Similarity
  | 0, _ => []
  | fuel + 1, l =>
    match l with
    | [] => []
    | _ => heapTop l :: drainAux fuel (heapPop l)

/-- The sequence of elements the query loop sees, in pop order. -/
def drain (l : List Similarity) : List Similarity :=
  drainAux l.length l

/-! ## Multiset specifications of the heap operations -/

/-- The multiset of retained entries — all that the query loop (which drains
the whole queue) can observe of a `priority_queue`, besides the pop order. -/
def msOf (l : List Similarity) : Multiset Similarity := (l : Multiset Similarity)

theorem msOf_nil : msOf [] = 0 := rfl

theorem msOf_cons (a : Similarity) (l : List Similarity) :
    msOf (a :: l) = {a} + msOf l := by
  rw [msOf, msOf, ← Multiset.cons_coe, ← Multiset.singleton_add]

theorem msOf_append (l1 l2 : List Similarity) :
    msOf (l1 ++ l2) = msOf l1 + msOf l2 :=
  (Multiset.coe_add l1 l2).symm

theorem mem_msOf {a : Similarity} {l : List Similarity} : a ∈ msOf l ↔ a ∈ l :=
  Multiset.mem_coe

theorem card_msOf (l : List Similarity) : Multiset.card (msOf l) = l.length :=
  Multiset.coe_card l

theorem getD_set_ne (l : List Similarity) (i j : Nat) (v : Similarity)
    (h : i ≠ j) : (l.set i v).getD j simDflt = l.getD j simDflt := by
  induction l generalizing i j with
  | nil => simp
  | cons a t ih =>
    cases i with
    | zero =>
      cases j with
      | zero => exact absurd rfl h
      | succ m => simp [List.getD_cons_succ]
    | succ n =>
      cases j with
      | zero => simp [List.getD_cons_zero]
      | succ m =>
        simp only [List.set_cons_succ, List.getD_cons_succ]
        exact ih n m (by omega)

theorem getD_mem (l : List Similarity) (i : Nat) (h : i < l.length) :
    l.getD i simDflt ∈ l := by
  rw [List.getD_eq_getElem l simDflt h]
  exact List.getElem_mem h

theorem getD_append_length (l : List Similarity) (c : Similarity) :
    (l ++ [c]).getD l.length simDflt = c := by
  induction l with
  | nil => rfl
  | cons a t ih => simp [List.getD_cons_succ, ih]

theorem set_append_length (l : List Similarity) (c x : Similarity) :
    (l ++ [c]).set l.length x = l ++ [x] := by
  induction l with
  | nil => rfl
  | cons a t ih => simp [List.set_cons_succ, ih]

theorem msOf_set (l : List Similarity) (i : Nat) (v : Similarity)
    (h : i < l.length) :
    msOf (l.set i v) + {l.getD i simDflt} = msOf l + {v} := by
  induction l generalizing i with
  | nil => simp at h
  | cons a t ih =>
    cases i with
    | zero =>
      simp only [List.set_cons_zero, List.getD_cons_zero, msOf_cons]
      abel
    | succ n =>
      simp only [List.set_cons_succ, List.getD_cons_succ, msOf_cons]
      have hn : n < t.length := by simpa using h
      rw [add_assoc, ih n hn, ← add_assoc]

theorem siftUp_length : ∀ (fuel : Nat) (l : List Similarity) (hole : Nat)
    (v : Similarity), (siftUp fuel l hole v).length = l.length := by
  intro fuel
  induction fuel with
  | zero => intro l hole v; simp [siftUp]
  | succ n ih =>
    intro l hole v
    rw [siftUp]
    split
    · simp
    · dsimp only
      split
      · rw [ih, List.length_set]
      · simp

theorem siftUp_multiset : ∀ (fuel : Nat) (l : List Similarity) (hole : Nat)
    (v : Similarity), hole < l.length →
    msOf (siftUp fuel l hole v) + {l.getD hole simDflt} = msOf l + {v} := by
  intro fuel
  induction fuel with
  | zero => intro l hole v h; exact msOf_set l hole v h
  | succ n ih =>
    intro l hole v h
    unfold siftUp
    by_cases h0 : hole = 0
    · simp only [h0, if_true]
      exact msOf_set l 0 v (h0 ▸ h)
    · simp only [h0, if_false]
      by_cases hlt : (l.getD ((hole - 1) / 2) simDflt).value < v.value
      · simp only [hlt, if_true]
        have hp : (hole - 1) / 2 < hole := by omega
        have hp2 : (hole - 1) / 2 < (l.set hole (l.getD ((hole - 1) / 2) simDflt)).length := by
          rw [List.length_set]; omega
        have h1 := ih (l.set hole (l.getD ((hole - 1) / 2) simDflt)) ((hole - 1) / 2) v hp2
        rw [getD_set_ne l hole ((hole - 1) / 2) _ (by omega)] at h1
        have h2 := msOf_set l hole (l.getD ((hole - 1) / 2) simDflt) h
        have h3 : (msOf (siftUp n (l.set hole (l.getD ((hole - 1) / 2) simDflt)) ((hole - 1) / 2) v)
              + {l.getD hole simDflt}) + {l.getD ((hole - 1) / 2) simDflt}
            = (msOf l + {v}) + {l.getD ((hole - 1) / 2) simDflt} := by
          calc (msOf (siftUp n (l.set hole (l.getD ((hole - 1) / 2) simDflt)) ((hole - 1) / 2) v)
                + {l.getD hole simDflt}) + {l.getD ((hole - 1) / 2) simDflt}
              = (msOf (siftUp n (l.set hole (l.getD ((hole - 1) / 2) simDflt)) ((hole - 1) / 2) v)
                + {l.getD ((hole - 1) / 2) simDflt}) + {l.getD hole simDflt} := by abel
            _ = (msOf (l.set hole (l.getD ((hole - 1) / 2) simDflt)) + {v}) + {l.getD hole simDflt} := by
                rw [h1]
            _ = (msOf (l.set hole (l.getD ((hole - 1) / 2) simDflt)) + {l.getD hole simDflt}) + {v} := by
                abel
            _ = (msOf l + {l.getD ((hole - 1) / 2) simDflt}) + {v} := by rw [h2]
            _ = (msOf l + {v}) + {l.getD ((hole - 1) / 2) simDflt} := by abel
        exact add_right_cancel h3
      · simp only [hlt, if_false]
        exact msOf_set l hole v h

/-- Invariant carried through the `__adjust_heap` loop: the hole index stays
inside the prefix, `secondChild` tracks the hole, length is preserved, and
the list content changes only by swapping the hole's credit. -/
abbrev ALSpec (l0 : List Similarity) (hole0 len : Nat)
    (t : List Similarity × Nat × Nat) : Prop :=
  t.2.1 < len ∧ t.2.2 = t.2.1 ∧ t.1.length = l0.length ∧
    msOf t.1 + {l0.getD hole0 simDflt} = msOf l0 + {t.1.getD t.2.1 simDflt}

theorem ALSpec_chain (len : Nat) (l : List Similarity) (hole sc2 : Nat)
    (hh : hole < len) (hlen : len ≤ l.length) (hne : hole < sc2)
    (t : List Similarity × Nat × Nat)
    (ht : ALSpec (l.set hole (l.getD sc2 simDflt)) sc2 len t) :
    ALSpec l hole len t := by
  obtain ⟨a1, a2, a3, a4⟩ := ht
  refine ⟨a1, a2, ?_, ?_⟩
  · rw [a3, List.length_set]
  · rw [getD_set_ne l hole sc2 _ (by omega)] at a4
    have hset := msOf_set l hole (l.getD sc2 simDflt) (lt_of_lt_of_le hh hlen)
    have h3 : (msOf t.1 + {l.getD hole simDflt}) + {l.getD sc2 simDflt}
        = (msOf l + {t.1.getD t.2.1 simDflt}) + {l.getD sc2 simDflt} := by
      calc (msOf t.1 + {l.getD hole simDflt}) + {l.getD sc2 simDflt}
          = (msOf t.1 + {l.getD sc2 simDflt}) + {l.getD hole simDflt} := by abel
        _ = (msOf (l.set hole (l.getD sc2 simDflt)) + {t.1.getD t.2.1 simDflt})
              + {l.getD hole simDflt} := by rw [a4]
        _ = (msOf (l.set hole (l.getD sc2 simDflt)) + {l.getD hole simDflt})
              + {t.1.getD t.2.1 simDflt} := by abel
        _ = (msOf l + {l.getD sc2 simDflt}) + {t.1.getD t.2.1 simDflt} := by rw [hset]
        _ = (msOf l + {t.1.getD t.2.1 simDflt}) + {l.getD sc2 simDflt} := by abel
    exact add_right_cancel h3

theorem adjustLoop_spec : ∀ (fuel len : Nat) (l : List Similarity) (hole : Nat),
    hole < len → len ≤ l.length →
    ALSpec l hole len (adjustLoop fuel l hole hole len) := by
  intro fuel
  induction fuel with
  | zero =>
    intro len l hole hh hlen
    exact ⟨hh, rfl, rfl, rfl⟩
  | succ n ih =>
    intro len l hole hh hlen
    rw [adjustLoop]
    split
    · rename_i hcond
      dsimp only
      split
      · refine ALSpec_chain len l hole (2 * (hole + 1) - 1) hh hlen (by omega) _
          (ih len _ _ (by omega) (by rw [List.length_set]; omega))
      · refine ALSpec_chain len l hole (2 * (hole + 1)) hh hlen (by omega) _
          (ih len _ _ (by omega) (by rw [List.length_set]; omega))
    · exact ⟨hh, rfl, rfl, rfl⟩

theorem adjustHeap_spec (l : List Similarity) (len : Nat) (v : Similarity)
    (h1 : 1 ≤ len) (h2 : len ≤ l.length) :
    (adjustHeap l len v).length = l.length ∧
    msOf (adjustHeap l len v) + {l.getD 0 simDflt} = msOf l + {v} := by
  obtain ⟨b1, b2, b3, b4⟩ := adjustLoop_spec len len l 0 (by omega) h2
  unfold adjustHeap
  dsimp only
  rw [b2]
  split
  · rename_i hpar
    obtain ⟨hpar1, hpar2⟩ := hpar
    rw [hpar2] at b1 b4 ⊢
    have e1 : 2 * ((len - 2) / 2 + 1) - 1 = len - 1 := by omega
    rw [e1]
    have hptlt : (len - 2) / 2 < (adjustLoop len l 0 0 len).1.length := by
      rw [b3]; omega
    have hne : (len - 2) / 2 ≠ len - 1 := by omega
    have hset := msOf_set (adjustLoop len l 0 0 len).1 ((len - 2) / 2)
      ((adjustLoop len l 0 0 len).1.getD (len - 1) simDflt) hptlt
    have hlt2 : len - 1 <
        ((adjustLoop len l 0 0 len).1.set ((len - 2) / 2)
          ((adjustLoop len l 0 0 len).1.getD (len - 1) simDflt)).length := by
      rw [List.length_set, b3]; omega
    have hsift := siftUp_multiset len
      ((adjustLoop len l 0 0 len).1.set ((len - 2) / 2)
        ((adjustLoop len l 0 0 len).1.getD (len - 1) simDflt)) (len - 1) v hlt2
    rw [getD_set_ne _ _ _ _ hne] at hsift
    constructor
    · rw [siftUp_length, List.length_set, b3]
    · have key : ((msOf (siftUp len
            ((adjustLoop len l 0 0 len).1.set ((len - 2) / 2)
              ((adjustLoop len l 0 0 len).1.getD (len - 1) simDflt)) (len - 1) v)
            + {l.getD 0 simDflt})
            + {(adjustLoop len l 0 0 len).1.getD (len - 1) simDflt})
            + {(adjustLoop len l 0 0 len).1.getD ((len - 2) / 2) simDflt}
          = ((msOf l + {v})
            + {(adjustLoop len l 0 0 len).1.getD (len - 1) simDflt})
            + {(adjustLoop len l 0 0 len).1.getD ((len - 2) / 2) simDflt} := by
        calc ((msOf (siftUp len
                ((adjustLoop len l 0 0 len).1.set ((len - 2) / 2)
                  ((adjustLoop len l 0 0 len).1.getD (len - 1) simDflt)) (len - 1) v)
                + {l.getD 0 simDflt})
                + {(adjustLoop len l 0 0 len).1.getD (len - 1) simDflt})
                + {(adjustLoop len l 0 0 len).1.getD ((len - 2) / 2) simDflt}
            = ((msOf (siftUp len
                ((adjustLoop len l 0 0 len).1.set ((len - 2) / 2)
                  ((adjustLoop len l 0 0 len).1.getD (len - 1) simDflt)) (len - 1) v)
                + {(adjustLoop len l 0 0 len).1.getD (len - 1) simDflt})
                + {l.getD 0 simDflt})
                + {(adjustLoop len l 0 0 len).1.getD ((len - 2) / 2) simDflt} := by abel
          _ = ((msOf ((adjustLoop len l 0 0 len).1.set ((len - 2) / 2)
                ((adjustLoop len l 0 0 len).1.getD (len - 1) simDflt)) + {v})
                + {l.getD 0 simDflt})
                + {(adjustLoop len l 0 0 len).1.getD ((len - 2) / 2) simDflt} := by rw [hsift]
          _ = ((msOf ((adjustLoop len l 0 0 len).1.set ((len - 2) / 2)
                ((adjustLoop len l 0 0 len).1.getD (len - 1) simDflt))
                + {(adjustLoop len l 0 0 len).1.getD ((len - 2) / 2) simDflt})
                + {l.getD 0 simDflt}) + {v} := by abel
          _ = ((msOf (adjustLoop len l 0 0 len).1
                + {(adjustLoop len l 0 0 len).1.getD (len - 1) simDflt})
                + {l.getD 0 simDflt}) + {v} := by rw [hset]
          _ = ((msOf (adjustLoop len l 0 0 len).1 + {l.getD 0 simDflt})
                + {(adjustLoop len l 0 0 len).1.getD (len - 1) simDflt}) + {v} := by abel
          _ = ((msOf l + {(adjustLoop len l 0 0 len).1.getD ((len - 2) / 2) simDflt})
                + {(adjustLoop len l 0 0 len).1.getD (len - 1) simDflt}) + {v} := by rw [b4]
          _ = ((msOf l + {v})
                + {(adjustLoop len l 0 0 len).1.getD (len - 1) simDflt})
                + {(adjustLoop len l 0 0 len).1.getD ((len - 2) / 2) simDflt} := by abel
      exact add_right_cancel (add_right_cancel key)
  · have hlt2 : (adjustLoop len l 0 0 len).2.1 < (adjustLoop len l 0 0 len).1.length := by
      rw [b3]; omega
    have hsift := siftUp_multiset len (adjustLoop len l 0 0 len).1
      (adjustLoop len l 0 0 len).2.1 v hlt2
    constructor
    · rw [siftUp_length, b3]
    · have key : (msOf (siftUp len (adjustLoop len l 0 0 len).1
            (adjustLoop len l 0 0 len).2.1 v) + {l.getD 0 simDflt})
            + {(adjustLoop len l 0 0 len).1.getD (adjustLoop len l 0 0 len).2.1 simDflt}
          = (msOf l + {v})
            + {(adjustLoop len l 0 0 len).1.getD (adjustLoop len l 0 0 len).2.1 simDflt} := by
        calc (msOf (siftUp len (adjustLoop len l 0 0 len).1
                (adjustLoop len l 0 0 len).2.1 v) + {l.getD 0 simDflt})
                + {(adjustLoop len l 0 0 len).1.getD (adjustLoop len l 0 0 len).2.1 simDflt}
            = (msOf (siftUp len (adjustLoop len l 0 0 len).1
                (adjustLoop len l 0 0 len).2.1 v)
                + {(adjustLoop len l 0 0 len).1.getD (adjustLoop len l 0 0 len).2.1 simDflt})
                + {l.getD 0 simDflt} := by abel
          _ = (msOf (adjustLoop len l 0 0 len).1 + {v}) + {l.getD 0 simDflt} := by rw [hsift]
          _ = (msOf (adjustLoop len l 0 0 len).1 + {l.getD 0 simDflt}) + {v} := by abel
          _ = (msOf l
                + {(adjustLoop len l 0 0 len).1.getD (adjustLoop len l 0 0 len).2.1 simDflt})
                + {v} := by rw [b4]
          _ = (msOf l + {v})
                + {(adjustLoop len l 0 0 len).1.getD (adjustLoop len l 0 0 len).2.1 simDflt} := by
              abel
      exact add_right_cancel key

theorem msOf_singleton (a : Similarity) : msOf [a] = {a} := by
  rw [msOf_cons, msOf_nil, add_zero]

theorem msOf_dropLast_getD (l : List Similarity) (h : l ≠ []) :
    msOf l.dropLast + {l.getD (l.length - 1) simDflt} = msOf l := by
  induction l with
  | nil => exact absurd rfl h
  | cons a t ih =>
    cases t with
    | nil => simp [msOf_cons, msOf_nil]
    | cons b t2 =>
      have ihh := ih (by simp)
      have e1 : (a :: b :: t2).length - 1 = t2.length + 1 := by simp
      have e2 : (b :: t2).length - 1 = t2.length := by simp
      rw [e2] at ihh
      rw [show (a :: b :: t2).dropLast = a :: (b :: t2).dropLast from rfl, e1,
        List.getD_cons_succ, msOf_cons, msOf_cons, add_assoc, ihh]

theorem heapPop_multiset (l : List Similarity) (h : l ≠ []) :
    msOf (heapPop l) + {l.getD 0 simDflt} = msOf l := by
  cases l with
  | nil => exact absurd rfl h
  | cons a t =>
    cases t with
    | nil => simp [heapPop, msOf_nil, msOf_cons]
    | cons b t2 =>
      have hlen1 : 1 ≤ (a :: b :: t2).length - 1 := by simp
      have hlen2 : (a :: b :: t2).length - 1 ≤ ((a :: b :: t2).dropLast).length := by
        simp
      obtain ⟨s1, s2⟩ := adjustHeap_spec ((a :: b :: t2).dropLast)
        ((a :: b :: t2).length - 1)
        ((a :: b :: t2).getD ((a :: b :: t2).length - 1) simDflt) hlen1 hlen2
      rw [show ((a :: b :: t2).dropLast).getD 0 simDflt
          = (a :: b :: t2).getD 0 simDflt from rfl] at s2
      rw [show heapPop (a :: b :: t2)
          = adjustHeap ((a :: b :: t2).dropLast) ((a :: b :: t2).length - 1)
            ((a :: b :: t2).getD ((a :: b :: t2).length - 1) simDflt) from rfl]
      rw [s2, msOf_dropLast_getD _ (by simp)]

theorem heapPush_multiset (l : List Similarity) (c : Similarity) :
    msOf (heapPush l c) = msOf l + {c} := by
  have h := siftUp_multiset l.length (l ++ [c]) l.length c (by simp)
  rw [getD_append_length, msOf_append, msOf_singleton] at h
  have h2 : msOf (heapPush l c) + {c} = (msOf l + {c}) + {c} := by
    unfold heapPush
    exact h
  exact add_right_cancel h2

theorem heapPush_length (l : List Similarity) (c : Similarity) :
    (heapPush l c).length = l.length + 1 := by
  unfold heapPush
  rw [siftUp_length]
  simp

theorem heapPop_length (l : List Similarity) (h : l ≠ []) :
    (heapPop l).length = l.length - 1 := by
  have hc := congrArg Multiset.card (heapPop_multiset l h)
  simp only [Multiset.card_add, card_msOf, Multiset.card_singleton] at hc
  omega

theorem heapPush_ne_nil (l : List Similarity) (c : Similarity) :
    heapPush l c ≠ [] := by
  intro e
  have h := heapPush_length l c
  rw [e] at h
  simp at h

theorem mem_heapPop {x : Similarity} {l : List Similarity}
    (h : x ∈ heapPop l) : x ∈ l := by
  cases l with
  | nil => simp [heapPop] at h
  | cons a t =>
    have hm := heapPop_multiset (a :: t) (by simp)
    have hx : x ∈ msOf (a :: t) := by
      rw [← hm]
      exact Multiset.mem_add.mpr (Or.inl (mem_msOf.mpr h))
    exact mem_msOf.mp hx

theorem mem_heapPush {x : Similarity} {l : List Similarity} {c : Similarity} :
    x ∈ heapPush l c ↔ x ∈ l ∨ x = c := by
  rw [← mem_msOf, heapPush_multiset, Multiset.mem_add, mem_msOf,
    Multiset.mem_singleton]

theorem mem_boundedInsert {x : Similarity} {h : List Similarity} {c : Similarity}
    (hx : x ∈ boundedInsert h c) : x ∈ h ∨ x = c := by
  unfold boundedInsert at hx
  dsimp only at hx
  split at hx
  · exact mem_heapPush.mp (mem_heapPop hx)
  · exact mem_heapPush.mp hx

theorem boundedInsert_length {h : List Similarity} {c : Similarity}
    (hh : h.length ≤ K) : (boundedInsert h c).length ≤ K := by
  unfold boundedInsert
  dsimp only
  split
  · rw [heapPop_length _ (heapPush_ne_nil h c), heapPush_length]
    omega
  · rename_i hle
    omega

/-! ## Behaviour of the bounded heap on tied similarity values -/

theorem heapPush_all_eq (l : List Similarity) (c : Similarity) (v : ℚ)
    (hl : ∀ e ∈ l, e.value = v) (hc : c.value = v) : heapPush l c = l ++ [c] := by
  cases l with
  | nil => rfl
  | cons a t =>
    rw [heapPush, show (a :: t).length = t.length + 1 from rfl, siftUp]
    have hne : ¬t.length + 1 = 0 := by omega
    rw [if_neg hne]
    dsimp only
    have hpar : (t.length + 1 - 1) / 2 < (a :: t).length := by
      simp only [List.length_cons]
      omega
    have hmem := getD_mem (a :: t) ((t.length + 1 - 1) / 2) hpar
    have hgd : ((a :: t) ++ [c]).getD ((t.length + 1 - 1) / 2) simDflt
        = (a :: t).getD ((t.length + 1 - 1) / 2) simDflt := by
      rw [List.getD_eq_getElem _ _ (by simp only [List.length_append,
        List.length_cons, List.length_singleton]; omega),
        List.getD_eq_getElem _ _ hpar]
      exact List.getElem_append_left _
    have hval : (((a :: t) ++ [c]).getD ((t.length + 1 - 1) / 2) simDflt).value
        = v := by
      rw [hgd]
      exact hl _ hmem
    rw [if_neg (by rw [hval, hc]; exact lt_irrefl v)]
    exact set_append_length (a :: t) c c

theorem foldl_boundedInsert_all_eq (v : ℚ) : ∀ (cs h : List Similarity),
    (∀ e ∈ h, e.value = v) → (∀ e ∈ cs, e.value = v) →
    h.length + cs.length ≤ K → cs.foldl boundedInsert h = h ++ cs := by
  intro cs
  induction cs with
  | nil => intro h _ _ _; simp
  | cons c cs ih =>
    intro h hh hcs hlen
    have hc : c.value = v := hcs c (by simp)
    have hlen2 : h.length + (cs.length + 1) ≤ K := by
      simpa using hlen
    have hpush : heapPush h c = h ++ [c] := heapPush_all_eq h c v hh hc
    have hstep : boundedInsert h c = h ++ [c] := by
      unfold boundedInsert
      dsimp only
      rw [hpush]
      rw [if_neg (by simp only [List.length_append, List.length_singleton]; omega)]
    have hh2 : ∀ e ∈ h ++ [c], e.value = v := by
      intro e he
      rcases List.mem_append.mp he with h1 | h1
      · exact hh e h1
      · simp at h1
        rw [h1]
        exact hc
    have hcs2 : ∀ e ∈ cs, e.value = v := fun e he => hcs e (List.mem_cons_of_mem _ he)
    have hlen3 : (h ++ [c]).length + cs.length ≤ K := by
      simp only [List.length_append, List.length_singleton]
      omega
    rw [List.foldl_cons, hstep, ih (h ++ [c]) hh2 hcs2 hlen3]
    simp

/-! ## The pipeline (stages 1-8 of `main`) -/

/-- `ratingsByUsers : unordered_map<int, unordered_map<int, double>>`. -/
abbrev Store := List (Nat × List (Nat × ℚ))

/-- Line 85: `ratingsByUsers[userId][itemId] = rating` — outer `operator[]`
followed by assignment on the inner map. -/
def storePut (st : Store) (u i : Nat) (r : ℚ) : Store :=
  alModify (fun items => alSet items i r) [] st u

/-- The running state of the ingestion loop (lines 56-90). -/
structure Ingest where
  store : Store
  globalSum : ℚ
  globalCount : Nat
  maxUserId : Nat
  maxItemId : Nat
deriving Repr

/-- Lines 85-89: store the record and update the running totals and maxima. -/
def ingestStep (s : Ingest) (t : Nat × Nat × ℚ) : Ingest :=
  { store := storePut s.store t.1 t.2.1 t.2.2
    globalSum := s.globalSum + t.2.2
    globalCount := s.globalCount + 1
    maxUserId := max s.maxUserId t.1
    maxItemId := max s.maxItemId t.2.1 }

def ingest0 : Ingest :=
  ⟨[], 0, 0, 0, 0⟩

/-- The whole training ingestion, over the parsed training records in stream
order (parsing itself is I/O plumbing outside the core). -/
def ingestAll (recs : List (Nat × Nat × ℚ)) : Ingest :=
  recs.foldl ingestStep ingest0

/-- Line 93: `globalMean = (globalCount > 0) ? globalSum / globalCount : 3.5`. -/
def globalMeanOf (s : Ingest) : ℚ :=
  if 0 < s.globalCount then s.globalSum / (s.globalCount : ℚ) else 7 / 2

/-- Lines 101-104: `userBias[u] = 0.0` for every user of the store. -/
def initUserBias (st : Store) : List (Nat × ℚ) :=
  st.map (fun p => (p.1, (0 : ℚ)))

/-- Lines 115-127: one gradient update for one stored rating.  `bu`/`bi` are
read first (the reads are `operator[]`, hence the `ensure`), the error uses
them, and both `+=` updates use those pre-update values. -/
def biasStep (μ : ℚ) (u i : Nat) (r : ℚ) (s : List (Nat × ℚ) × List ℚ) :
    List (Nat × ℚ) × List ℚ :=
  let ub1 := ensure s.1 u 0
  let bu := aget0 ub1 u
  let bi := s.2.getD i 0
  let pred := μ + bu + bi
  let err := r - pred
  (alSet ub1 u (bu + ALPHA * (err - REG * bu)),
   s.2.set i (bi + ALPHA * (err - REG * bi)))

/-- Lines 113-128: one full pass over all ratings in stored order; updates are
in place, so later ratings of the same pass see the earlier updates. -/
def biasPass (μ : ℚ) (st : Store) (s : List (Nat × ℚ) × List ℚ) :
    List (Nat × ℚ) × List ℚ :=
  st.foldl (fun acc p => p.2.foldl (fun a q => biasStep μ p.1 q.1 q.2 a) acc) s

/-- Lines 97-129: biases start at zero (`userBias[u] = 0.0`, the dense
`itemBias(maxItemId + 1, 0.0)`) and are refined for `NUM_ITERS` passes. -/
def fitBiases (μ : ℚ) (st : Store) (maxI : Nat) : List (Nat × ℚ) × List ℚ :=
  (biasPass μ st)^[NUM_ITERS] (initUserBias st, List.replicate (maxI + 1) 0)

def biasesOf (recs : List (Nat × Nat × ℚ)) : List (Nat × ℚ) × List ℚ :=
  fitBiases (globalMeanOf (ingestAll recs)) (ingestAll recs).store
    (ingestAll recs).maxItemId

/-- The rating the store retains for `(u, i)`, if any. -/
def ratedBy (st : Store) (u i : Nat) : Option ℚ :=
  (alookup st u).bind (fun items => alookup items i)

/-- Lines 133-143: `itemToUser[i]`, the `(user, residual)` list of item `i`,
in store (user) order, with residuals from the final fitted biases. -/
def itemRaters (μ : ℚ) (ub : List (Nat × ℚ)) (ib : List ℚ) (st : Store)
    (i : Nat) : List (Nat × ℚ) :=
  st.filterMap (fun p =>
    (alookup p.2 i).map (fun r => (p.1, r - (μ + aget0 ub p.1 + ib.getD i 0))))

/-- The residual of rating `r` for `(u, i)` under the fitted model. -/
def residualAt (recs : List (Nat × Nat × ℚ)) (u i : Nat) (r : ℚ) : ℚ :=
  r - (globalMeanOf (ingestAll recs) + aget0 (biasesOf recs).1 u
    + (biasesOf recs).2.getD i 0)

/-- Line 154: `magnitudeMap[u] += res * res`. -/
def magStep (m : List (Nat × ℚ)) (p : Nat × ℚ) : List (Nat × ℚ) :=
  alModify (fun x => x + p.2 * p.2) 0 m p.1

/-- Lines 150-156: NOTE the loop is `for (int i = 1; i <= maxItemId; i++)` —
item id 0 is never visited. -/
def magnitudeMap (μ : ℚ) (ub : List (Nat × ℚ)) (ib : List ℚ) (st : Store)
    (maxI : Nat) : List (Nat × ℚ) :=
  (List.range' 1 maxI).foldl
    (fun m i => (itemRaters μ ub ib st i).foldl magStep m) []

def magMapOf (recs : List (Nat × Nat × ℚ)) : List (Nat × ℚ) :=
  magnitudeMap (globalMeanOf (ingestAll recs)) (biasesOf recs).1
    (biasesOf recs).2 (ingestAll recs).store (ingestAll recs).maxItemId

/-- The ordered pairs `(listU[a], listU[b])` with `a < b` visited by the
double loop of lines 161-178. -/
def pairsOf {α : Type} : List α → List (α × α)
  | [] => []
  | x :: xs => xs.map (fun y => (x, y)) ++ pairsOf xs

/-- Lines 167-174: swap so that `uA < uB` (the residuals travel along). -/
def orientPair (p q : Nat × ℚ) : (Nat × ℚ) × (Nat × ℚ) :=
  if q.1 < p.1 then (q, p) else (p, q)

/-- Lines 175-176: `dotAB[uA][uB].sum += rA * rB; dotAB[uA][uB].count += 1`.
The nested map is flattened to pair keys, in first-touch order. -/
def dotStep (d : List ((Nat × Nat) × ℚ × Nat)) (pq : (Nat × ℚ) × (Nat × ℚ)) :
    List ((Nat × Nat) × ℚ × Nat) :=
  let o := orientPair pq.1 pq.2
  alModify (fun sc => (sc.1 + o.1.2 * o.2.2, sc.2 + 1)) (0, 0) d (o.1.1, o.2.1)

/-- Lines 159-179: again `for (int i = 1; i <= maxItemId; i++)` — item 0 is
excluded from the dot products. -/
def dotAccum (μ : ℚ) (ub : List (Nat × ℚ)) (ib : List ℚ) (st : Store)
    (maxI : Nat) : List ((Nat × Nat) × ℚ × Nat) :=
  (List.range' 1 maxI).foldl
    (fun d i => (pairsOf (itemRaters μ ub ib st i)).foldl dotStep d) []

def dotABOf (recs : List (Nat × Nat × ℚ)) : List ((Nat × Nat) × ℚ × Nat) :=
  dotAccum (globalMeanOf (ingestAll recs)) (biasesOf recs).1 (biasesOf recs).2
    (ingestAll recs).store (ingestAll recs).maxItemId

/-- The `DotData` (sum, count) of a user pair, `(0, 0)` if never touched. -/
def dotGet (d : List ((Nat × Nat) × ℚ × Nat)) (k : Nat × Nat) : ℚ × Nat :=
  (alookup d k).getD (0, 0)

/-- Lines 44-47: `if (magA == 0.0 || magB == 0.0) return 0.0;
return dotProduct / (sqrt(magA) * sqrt(magB));` with `sqrt` abstracted. -/
def cosineSimilarity (sqrtFn : ℚ → ℚ) (dotProduct magA magB : ℚ) : ℚ :=
  if magA = 0 ∨ magB = 0 then 0 else dotProduct / (sqrtFn magA * sqrtFn magB)

/-- Lines 194-209: the per-pair similarity value, `none` when the pair is
skipped (`rawSim ≤ 0`) or when `finalSim` fails the `> 0` guard.  `powFn`
abstracts `pow(fabs(rawSim), AMP_FACTOR)`. -/
def finalSimOpt (sqrtFn powFn : ℚ → ℚ) (mag : Nat → ℚ)
    (e : (Nat × Nat) × ℚ × Nat) : Option ℚ :=
  let rawSim := cosineSimilarity sqrtFn e.2.1 (mag e.1.1) (mag e.1.2)
  if rawSim ≤ 0 then none
  else
    let factor := (e.2.2 : ℚ) / ((e.2.2 : ℚ) + SHRINK)
    let ampSim0 := powFn |rawSim|
    let ampSim := if rawSim < 0 then -ampSim0 else ampSim0
    let finalSim := ampSim * factor
    if 0 < finalSim then some finalSim else none

/-- Lines 211-217 (resp. 219-225): `topNeighbors[u]` (`operator[]`, fresh
empty queue if absent), `push`, and pop-if-over-K, in place. -/
def pushCand (tn : List (Nat × List Similarity)) (u : Nat) (c : Similarity) :
    List (Nat × List Similarity) :=
  alModify (fun h => boundedInsert h c) [] tn u

/-- Lines 184-228: process one accumulated pair. -/
def simStep (sqrtFn powFn : ℚ → ℚ) (mag : Nat → ℚ)
    (tn : List (Nat × List Similarity)) (e : (Nat × Nat) × ℚ × Nat) :
    List (Nat × List Similarity) :=
  match finalSimOpt sqrtFn powFn mag e with
  | none => tn
  | some s => pushCand (pushCand tn e.1.1 ⟨e.1.2, s⟩) e.1.2 ⟨e.1.1, s⟩

def buildNeighbors (sqrtFn powFn : ℚ → ℚ) (mag : Nat → ℚ)
    (dotl : List ((Nat × Nat) × ℚ × Nat)) : List (Nat × List Similarity) :=
  dotl.foldl (simStep sqrtFn powFn mag) []

/-- The two symmetric registrations an accumulated pair emits (lines
211-225), before any top-K truncation. -/
def entryRegs (sqrtFn powFn : ℚ → ℚ) (mag : Nat → ℚ)
    (e : (Nat × Nat) × ℚ × Nat) : List (Nat × Nat × ℚ) :=
  match finalSimOpt sqrtFn powFn mag e with
  | none => []
  | some s => [(e.1.1, e.1.2, s), (e.1.2, e.1.1, s)]

/-- All candidate registrations of the similarity stage, in emission order. -/
def regsOf (sqrtFn powFn : ℚ → ℚ) (mag : Nat → ℚ)
    (dotl : List ((Nat × Nat) × ℚ × Nat)) : List (Nat × Nat × ℚ) :=
  dotl.flatMap (entryRegs sqrtFn powFn mag)

/-- `magnitudeMap[u]` as read by stage 7 (`operator[]` with default `0`;
the insertion side effect on `magnitudeMap` is unobservable afterwards). -/
def magFunOf (recs : List (Nat × Nat × ℚ)) : Nat → ℚ :=
  fun u => aget0 (magMapOf recs) u

def topNeighborsOf (sqrtFn powFn : ℚ → ℚ) (recs : List (Nat × Nat × ℚ)) :
    List (Nat × List Similarity) :=
  buildNeighbors sqrtFn powFn (magFunOf recs) (dotABOf recs)

/-- The fitted model as it stands when the test loop (line 231) starts. -/
structure Model where
  store : Store
  globalMean : ℚ
  userBias : List (Nat × ℚ)
  itemBias : List ℚ
  maxItemId : Nat
  topNeighbors : List (Nat × List Similarity)

def buildModel (sqrtFn powFn : ℚ → ℚ) (recs : List (Nat × Nat × ℚ)) : Model :=
  { store := (ingestAll recs).store
    globalMean := globalMeanOf (ingestAll recs)
    userBias := (biasesOf recs).1
    itemBias := (biasesOf recs).2
    maxItemId := (ingestAll recs).maxItemId
    topNeighbors := topNeighborsOf sqrtFn powFn recs }

/-- Lines 237-244: `baseline = globalMean`, plus `userBias[userId]` only when
`find` succeeds, plus `itemBias[itemId]` only when `1 <= itemId <= maxItemId`. -/
def baselineOf (m : Model) (userId itemId : Nat) : ℚ :=
  let b1 :=
    match alookup m.userBias userId with
    | some bu => m.globalMean + bu
    | none => m.globalMean
  if 1 ≤ itemId ∧ itemId ≤ m.maxItemId then b1 + m.itemBias.getD itemId 0 else b1

/-- Lines 253-272, one drained neighbor: `ratingsByUsers[neighbor]`
(`operator[]` — may insert an empty inner map), `find(itemId)`, and on a hit
`userBias[neighbor]` (`operator[]` — may insert `0`), the neighbor baseline
and the two weighted sums.  The accumulator is
`(weightedSum, sumOfWeights, ratingsByUsers, userBias)`. -/
def neighStep (μ : ℚ) (ib : List ℚ) (maxI itemId : Nat)
    (acc : ℚ × ℚ × Store × List (Nat × ℚ)) (t : Similarity) :
    ℚ × ℚ × Store × List (Nat × ℚ) :=
  let gi := alGetIns acc.2.2.1 t.userB []
  match alookup gi.1 itemId with
  | none => (acc.1, acc.2.1, gi.2, acc.2.2.2)
  | some nr =>
    let gb := alGetIns acc.2.2.2 t.userB 0
    let nb0 := μ + gb.1
    let nb := if 1 ≤ itemId ∧ itemId ≤ maxI then nb0 + ib.getD itemId 0 else nb0
    (acc.1 + (nr - nb) * t.value, acc.2.1 + |t.value|, gi.2, gb.2)

/-- Lines 230-280: one test query.  Returns the emitted prediction and the
model (whose `store`/`userBias` the neighbor loop may in principle extend
through `operator[]`). -/
def step (m : Model) (q : Nat × Nat) : ℚ × Model :=
  let baseline := baselineOf m q.1 q.2
  match alookup m.topNeighbors q.1 with
  | none => (baseline, m)
  | some pq =>
    let acc := (drain pq).foldl (neighStep m.globalMean m.itemBias m.maxItemId q.2)
      (0, 0, m.store, m.userBias)
    (if 0 < acc.2.1 then baseline + acc.1 / acc.2.1 else baseline,
     { m with store := acc.2.2.1, userBias := acc.2.2.2 })

/-- The whole test loop, threading the (potentially mutated) model. -/
def runQueries (m : Model) : List (Nat × Nat) → List ℚ × Model
  | [] => ([], m)
  | q :: qs =>
    let r := step m q
    let rest := runQueries r.2 qs
    (r.1 :: rest.1, rest.2)

/-! ## Closed-form behaviour of the bounded heap on monotone push sequences -/

theorem heapPush_le (l : List Similarity) (c : Similarity)
    (hl : ∀ e ∈ l, c.value ≤ e.value) : heapPush l c = l ++ [c] := by
  cases l with
  | nil => rfl
  | cons a t =>
    rw [heapPush, show (a :: t).length = t.length + 1 from rfl, siftUp]
    have hne : ¬t.length + 1 = 0 := by omega
    rw [if_neg hne]
    dsimp only
    have hpar : (t.length + 1 - 1) / 2 < (a :: t).length := by
      simp only [List.length_cons]
      omega
    have hmem := getD_mem (a :: t) ((t.length + 1 - 1) / 2) hpar
    have hgd : ((a :: t) ++ [c]).getD ((t.length + 1 - 1) / 2) simDflt
        = (a :: t).getD ((t.length + 1 - 1) / 2) simDflt := by
      rw [List.getD_eq_getElem _ _ (by simp only [List.length_append,
        List.length_cons, List.length_singleton]; omega),
        List.getD_eq_getElem _ _ hpar]
      exact List.getElem_append_left _
    rw [if_neg (by rw [hgd]; exact not_lt.mpr (hl _ hmem))]
    exact set_append_length (a :: t) c c

theorem foldl_boundedInsert_desc : ∀ (cs h : List Similarity),
    (∀ c ∈ cs, ∀ e ∈ h, c.value ≤ e.value) →
    cs.Pairwise (fun a b => b.value ≤ a.value) →
    h.length + cs.length ≤ K → cs.foldl boundedInsert h = h ++ cs := by
  intro cs
  induction cs with
  | nil => intro h _ _ _; simp
  | cons c cs ih =>
    intro h hch hpw hlen
    have hc : ∀ e ∈ h, c.value ≤ e.value := hch c (by simp)
    have hlen2 : h.length + (cs.length + 1) ≤ K := by simpa using hlen
    have hpush : heapPush h c = h ++ [c] := heapPush_le h c hc
    have hstep : boundedInsert h c = h ++ [c] := by
      unfold boundedInsert
      dsimp only
      rw [hpush]
      rw [if_neg (by simp only [List.length_append, List.length_singleton]; omega)]
    have hpw2 := (List.pairwise_cons.mp hpw).2
    have hcfirst := (List.pairwise_cons.mp hpw).1
    have hch2 : ∀ d ∈ cs, ∀ e ∈ h ++ [c], d.value ≤ e.value := by
      intro d hd e he
      rcases List.mem_append.mp he with h1 | h1
      · exact hch d (List.mem_cons_of_mem _ hd) e h1
      · simp at h1
        rw [h1]
        exact hcfirst d hd
    have hlen3 : (h ++ [c]).length + cs.length ≤ K := by
      simp only [List.length_append, List.length_singleton]
      omega
    rw [List.foldl_cons, hstep, ih (h ++ [c]) hch2 hpw2 hlen3]
    simp

theorem mem_of_mem_dropLast {α : Type} {x : α} {l : List α}
    (hx : x ∈ l.dropLast) : x ∈ l := by
  cases l with
  | nil => simp at hx
  | cons a t =>
    have hne : (a :: t) ≠ [] := by simp
    rw [← List.dropLast_append_getLast hne]
    exact List.mem_append_left _ hx

theorem dropLast_append_getD (l : List Similarity) (h : l ≠ []) :
    l.dropLast ++ [l.getD (l.length - 1) simDflt] = l := by
  induction l with
  | nil => exact absurd rfl h
  | cons a t ih =>
    cases t with
    | nil => rfl
    | cons b t2 =>
      have e1 : (a :: b :: t2).length - 1 = t2.length + 1 := by simp
      rw [show (a :: b :: t2).dropLast = a :: (b :: t2).dropLast from rfl, e1,
        List.getD_cons_succ]
      have ihh := ih (by simp)
      rw [show (b :: t2).length - 1 = t2.length from by simp] at ihh
      rw [List.cons_append, ihh]

theorem count_msOf (a : Similarity) (l : List Similarity) :
    Multiset.count a (msOf l) = l.count a :=
  Multiset.coe_count a l

/-- When `K + 1` candidates arrive and the first `K` pushes leave the array
untouched (`foldl = id` on them) and the last push appends, the single `pop`
evicts exactly the heap root — the FIRST array element. -/
theorem foldl_boundedInsert_evicts_root (cs : List Similarity) (hne : cs ≠ [])
    (hlen : cs.length = K + 1)
    (hpre : cs.dropLast.foldl boundedInsert [] = cs.dropLast)
    (hpush : heapPush cs.dropLast (cs.getD (cs.length - 1) simDflt)
      = cs.dropLast ++ [cs.getD (cs.length - 1) simDflt]) :
    cs.foldl boundedInsert [] = heapPop cs
      ∧ msOf (cs.foldl boundedInsert []) + {cs.getD 0 simDflt} = msOf cs := by
  have hsplit := dropLast_append_getD cs hne
  have h5 : cs.foldl boundedInsert []
      = boundedInsert cs.dropLast (cs.getD (cs.length - 1) simDflt) := by
    conv_lhs => rw [← hsplit]
    rw [List.foldl_append, hpre]
    simp
  have h6 : boundedInsert cs.dropLast (cs.getD (cs.length - 1) simDflt)
      = heapPop cs := by
    unfold boundedInsert
    dsimp only
    rw [hpush, hsplit]
    rw [if_pos (by omega)]
  rw [h5, h6]
  exact ⟨rfl, heapPop_multiset cs hne⟩

/-- Count bookkeeping for a single eviction. -/
theorem count_after_eviction (R cs : List Similarity) (x a : Similarity)
    (h : msOf R + {x} = msOf cs) :
    Multiset.count a (msOf R) + Multiset.count a ({x} : Multiset Similarity)
      = Multiset.count a (msOf cs) := by
  rw [← Multiset.count_add, h]

/-- A full tie: `K + 1` candidates of one common similarity value.  Since
`operator<` is strict, every push leaves the array in insertion order, and
the single eviction removes the array root — the FIRST-inserted entry. -/
theorem tieEvictAux (v : ℚ) (cs : List Similarity)
    (h1 : cs.length = K + 1) (h2 : ∀ e ∈ cs, e.value = v) :
    cs.foldl boundedInsert [] = heapPop cs
      ∧ msOf (cs.foldl boundedInsert []) + {cs.getD 0 simDflt} = msOf cs := by
  have hne : cs ≠ [] := by
    intro e
    rw [e] at h1
    simp [K] at h1
  have hdropeq : ∀ e ∈ cs.dropLast, e.value = v :=
    fun e he => h2 e (mem_of_mem_dropLast he)
  have hdlen : cs.dropLast.length = K := by
    rw [List.length_dropLast, h1]
    omega
  have hpre : cs.dropLast.foldl boundedInsert [] = cs.dropLast := by
    have h := foldl_boundedInsert_all_eq v cs.dropLast []
      (by intro e he; simp at he) hdropeq (by rw [hdlen]; simp)
    simpa using h
  have hpush : heapPush cs.dropLast (cs.getD (cs.length - 1) simDflt)
      = cs.dropLast ++ [cs.getD (cs.length - 1) simDflt] := by
    apply heapPush_le
    intro e he
    rw [h2 _ (getD_mem cs (cs.length - 1) (by omega)), hdropeq e he]
  exact foldl_boundedInsert_evicts_root cs hne h1 hpre hpush

/-- `K + 1` candidates, all of similarity 1, with distinct neighbor ids, in
two insertion orders differing by a swap of the first two. -/
def tieRest : List Similarity := (List.range 189).map (fun j => ⟨j + 2, 1⟩)

def csA : List Similarity := ⟨0, 1⟩ :: ⟨1, 1⟩ :: tieRest

def csB : List Similarity := ⟨1, 1⟩ :: ⟨0, 1⟩ :: tieRest

/-- `n` candidates with ids `i, i+1, ...` and strictly decreasing
similarities `v, v-1, ...`. -/
def descList : Nat → ℚ → Nat → List Similarity
  | 0, _, _ => []
  | n + 1, v, i => ⟨i, v⟩ :: descList n (v - 1) (i + 1)

/-- Strictly decreasing similarities 200, 199, ..., 10 with ids 0..190. -/
def csC : List Similarity := descList 191 200 0

/-- Claim C5 (amended): the comparator of `Similarity` has NO secondary key,
so when candidates tie on the similarity value the evicted entry is the one
dictated by heap/insertion order: pushing `K + 1` candidates of one common
similarity value evicts exactly the FIRST-inserted candidate (the array
root), whatever its neighbor id.  The retained collection is the input minus
its head, and the structure after the eviction is `heapPop` of the array in
insertion order. -/
theorem eviction_tie_first_inserted (v : ℚ) (cs : List Similarity)
    (h1 : cs.length = K + 1) (h2 : ∀ e ∈ cs, e.value = v) :
    cs.foldl boundedInsert [] = heapPop cs
      ∧ msOf (cs.foldl boundedInsert []) + {cs.getD 0 simDflt} = msOf cs :=
  tieEvictAux v cs h1 h2

/-- Witness for `eviction_tie_first_inserted` at the concrete 191-candidate
stream `csA` of common value 1. -/
theorem eviction_tie_witness :
    csA.length = K + 1
      ∧ msOf (csA.foldl boundedInsert []) + {csA.getD 0 simDflt} = msOf csA :=
  ⟨by decide, (eviction_tie_first_inserted 1 csA (by decide) (by decide)).2⟩

/-- Counterexample to claim C5 as stated: `csA` and `csB` hold the same 191
candidates (they are a permutation, differing only in insertion order), all
tied at similarity 1, yet the evicted entry differs — `(0, 1)` is evicted
from the `csA` order but retained under the `csB` order.  Hence the evicted
entry is NOT determined by any deterministic secondary key on the neighbor
id: it depends on insertion/heap order. -/
theorem eviction_depends_on_insertion_order :
    csA.Perm csB
      ∧ (⟨0, 1⟩ : Similarity) ∉ csA.foldl boundedInsert []
      ∧ (⟨0, 1⟩ : Similarity) ∈ csB.foldl boundedInsert [] := by
  refine ⟨?_, ?_, ?_⟩
  · exact List.Perm.swap ⟨1, 1⟩ ⟨0, 1⟩ tieRest
  · have hA := (tieEvictAux 1 csA (by decide) (by decide)).2
    rw [show csA.getD 0 simDflt = (⟨0, 1⟩ : Similarity) from rfl] at hA
    have hcnt := count_after_eviction _ csA ⟨0, 1⟩ ⟨0, 1⟩ hA
    rw [Multiset.count_singleton_self, count_msOf, count_msOf] at hcnt
    have hone : csA.count (⟨0, 1⟩ : Similarity) = 1 := by decide
    rw [hone] at hcnt
    intro hmem
    have hpos := Multiset.count_pos.mpr (mem_msOf.mpr hmem)
    rw [count_msOf] at hpos
    omega
  · have hB := (tieEvictAux 1 csB (by decide) (by decide)).2
    rw [show csB.getD 0 simDflt = (⟨1, 1⟩ : Similarity) from rfl] at hB
    have hcnt := count_after_eviction _ csB ⟨1, 1⟩ ⟨0, 1⟩ hB
    rw [Multiset.count_singleton, if_neg (by decide), count_msOf, count_msOf] at hcnt
    have hone : csB.count (⟨0, 1⟩ : Similarity) = 1 := by decide
    rw [hone] at hcnt
    have hpos : 0 < Multiset.count (⟨0, 1⟩ : Similarity)
        (msOf (csB.foldl boundedInsert [])) := by
      rw [count_msOf]
      omega
    exact mem_msOf.mp (Multiset.count_pos.mp hpos)

/-- Claim C6, the code evaluated at a failing input: 191 candidates with
strictly DECREASING similarities 200, 199, ..., 10 pushed into one bounded
structure.  `pq.pop()` on `priority_queue<Similarity>` (a max-heap under
`operator<`) removes the LARGEST similarity: the retained 190 entries are
the 190 SMALLEST — entry `(0, 200)` is evicted and `(190, 10)` is kept,
the opposite of "evict the single smallest-similarity entry". -/
theorem eviction_removes_largest_similarity :
    (⟨0, 200⟩ : Similarity) ∉ csC.foldl boundedInsert []
      ∧ (⟨190, 10⟩ : Similarity) ∈ csC.foldl boundedInsert []
      ∧ (csC.foldl boundedInsert []).length = K := by
  have hne : csC ≠ [] := by
    intro h
    have hlen := congrArg List.length h
    rw [show csC.length = 191 from by decide] at hlen
    simp at hlen
  have hpre : csC.dropLast.foldl boundedInsert [] = csC.dropLast := by
    have h := foldl_boundedInsert_desc csC.dropLast []
      (by intro c _ e he; simp at he)
      (by with_unfolding_all decide) (by decide)
    simpa using h
  have hpush : heapPush csC.dropLast (csC.getD (csC.length - 1) simDflt)
      = csC.dropLast ++ [csC.getD (csC.length - 1) simDflt] := by
    apply heapPush_le
    with_unfolding_all decide
  have hms := (foldl_boundedInsert_evicts_root csC hne (by decide) hpre hpush).2
  rw [show csC.getD 0 simDflt = (⟨0, 200⟩ : Similarity) from rfl] at hms
  refine ⟨?_, ?_, ?_⟩
  · have hcnt := count_after_eviction _ csC ⟨0, 200⟩ ⟨0, 200⟩ hms
    rw [Multiset.count_singleton_self, count_msOf, count_msOf] at hcnt
    have hone : csC.count (⟨0, 200⟩ : Similarity) = 1 := by with_unfolding_all decide
    rw [hone] at hcnt
    intro hmem
    have hpos := Multiset.count_pos.mpr (mem_msOf.mpr hmem)
    rw [count_msOf] at hpos
    omega
  · have hcnt := count_after_eviction _ csC ⟨0, 200⟩ ⟨190, 10⟩ hms
    rw [Multiset.count_singleton, if_neg (by decide), count_msOf, count_msOf] at hcnt
    have hone : csC.count (⟨190, 10⟩ : Similarity) = 1 := by with_unfolding_all decide
    rw [hone] at hcnt
    have hpos : 0 < Multiset.count (⟨190, 10⟩ : Similarity)
        (msOf (csC.foldl boundedInsert [])) := by
      rw [count_msOf]
      omega
    exact mem_msOf.mp (Multiset.count_pos.mp hpos)
  · have hc := congrArg Multiset.card hms
    simp only [Multiset.card_add, card_msOf, Multiset.card_singleton] at hc
    have hl : csC.length = 191 := by decide
    rw [hl] at hc
    rw [show K = 190 from rfl]
    omega

/-! ## Claim C3: the global mean -/

theorem ingest_count_sum_aux : ∀ (recs : List (Nat × Nat × ℚ)) (s : Ingest),
    (recs.foldl ingestStep s).globalCount = s.globalCount + recs.length
      ∧ (recs.foldl ingestStep s).globalSum
        = s.globalSum + (recs.map (fun t => t.2.2)).sum := by
  intro recs
  induction recs with
  | nil => intro s; simp
  | cons t ts ih =>
    intro s
    obtain ⟨h1, h2⟩ := ih (ingestStep s t)
    rw [List.foldl_cons]
    refine ⟨?_, ?_⟩
    · rw [h1]
      simp [ingestStep]
      omega
    · rw [h2]
      simp [ingestStep]
      ring

/-- Counterexample to claim C3 as stated: with the stream
`[(1,1,5), (1,1,1)]` the store retains a single rating `1` (mean 1), but
`globalSum`/`globalCount` were already advanced by the overwritten record,
so the program's globalMean is `(5+1)/2 = 3`, not the retained mean. -/
def retainedRatings (st : Store) : List ℚ :=
  st.flatMap (fun p => p.2.map Prod.snd)

/-- The claim's reading of the mean — over the RETAINED ratings only — as a
spec-side definition for comparison. -/
def specGlobalMean (st : Store) : ℚ :=
  if (retainedRatings st).length = 0 then 7 / 2
  else (retainedRatings st).sum / ((retainedRatings st).length : ℚ)

/-- Claim C3 counterexample (see `specGlobalMean`): the two means differ on
a stream with an overwritten rating. -/
theorem globalMean_counts_overwritten_ratings :
    globalMeanOf (ingestAll [(1, 1, 5), (1, 1, (1 : ℚ))]) = 3
      ∧ specGlobalMean (ingestAll [(1, 1, 5), (1, 1, (1 : ℚ))]).store = 1
      ∧ (3 : ℚ) ≠ 1 := by
  refine ⟨by with_unfolding_all decide, by with_unfolding_all decide, by norm_num⟩

/-- Claim C3 (amended): globalMean is the arithmetic mean of ALL training
records — an overwritten rating still contributes its value to `globalSum`
and its unit to `globalCount` (lines 85-87 update the store and the totals
unconditionally) — or 3.5 when there are no training records. -/
theorem globalMean_mean_of_all_records (recs : List (Nat × Nat × ℚ)) :
    globalMeanOf (ingestAll recs)
      = if recs.length = 0 then 7 / 2
        else (recs.map (fun t => t.2.2)).sum / (recs.length : ℚ) := by
  obtain ⟨h1, h2⟩ := ingest_count_sum_aux recs ingest0
  unfold globalMeanOf ingestAll
  rw [h1, h2]
  show (if 0 < 0 + recs.length then ((0 : ℚ) + _) / _ else 7 / 2) = _
  by_cases h : recs.length = 0
  · rw [if_neg (by omega), if_pos h]
  · rw [if_pos (by omega), if_neg h, zero_add]
    rw [show ingest0.globalCount = 0 from rfl, Nat.zero_add]

/-! ## Claim C4: the gradient step and the pass structure -/

theorem list_getD_set_self {α : Type} :
    ∀ (l : List α) (i : Nat) (v d : α), i < l.length → (l.set i v).getD i d = v := by
  intro l
  induction l with
  | nil => intro i v d h; simp at h
  | cons a t ih =>
    intro i v d h
    cases i with
    | zero => rfl
    | succ n =>
      rw [List.set_cons_succ, List.getD_cons_succ]
      exact ih n v d (by simpa using h)

theorem list_getD_set_ne {α : Type} :
    ∀ (l : List α) (i j : Nat) (v d : α), i ≠ j →
      (l.set i v).getD j d = l.getD j d := by
  intro l
  induction l with
  | nil => intro i j v d h; simp
  | cons a t ih =>
    intro i j v d h
    cases i with
    | zero =>
      cases j with
      | zero => exact absurd rfl h
      | succ m => rfl
    | succ n =>
      cases j with
      | zero => rfl
      | succ m =>
        rw [List.set_cons_succ, List.getD_cons_succ, List.getD_cons_succ]
        exact ih n m v d (by omega)

theorem alookup_append_single {κ α : Type} [DecidableEq κ]
    (m : List (κ × α)) (q w : κ) (d : α) :
    alookup (m ++ [(q, d)]) w
      = match alookup m w with
        | some v => some v
        | none => if q = w then some d else none := by
  induction m with
  | nil => simp [alookup]
  | cons p m ih =>
    obtain ⟨k, v⟩ := p
    by_cases hk : k = w
    · simp [alookup, hk]
    · simp only [List.cons_append, alookup, hk, if_false]
      exact ih

theorem alookup_ensure_self {κ α : Type} [DecidableEq κ]
    (m : List (κ × α)) (q : κ) (d : α) :
    alookup (ensure m q d) q = some ((alookup m q).getD d) := by
  unfold ensure alGetIns
  cases hm : alookup m q with
  | some v => simpa using hm
  | none =>
    dsimp only
    rw [alookup_append_single, hm, if_pos rfl]
    rfl

theorem alookup_ensure_ne {κ α : Type} [DecidableEq κ]
    (m : List (κ × α)) (q w : κ) (d : α) (hw : w ≠ q) :
    alookup (ensure m q d) w = alookup m w := by
  unfold ensure alGetIns
  cases hm : alookup m q with
  | some v => simp
  | none =>
    dsimp only
    rw [alookup_append_single, if_neg (fun e => hw e.symm)]
    cases alookup m w <;> rfl

theorem aget0_ensure_self (m : List (Nat × ℚ)) (q : Nat) :
    aget0 (ensure m q 0) q = aget0 m q := by
  unfold aget0
  rw [alookup_ensure_self]
  cases alookup m q <;> rfl

theorem foldl_flatMap {α β γ : Type} (f : γ → β → γ) (g : α → List β) :
    ∀ (l : List α) (s : γ),
      (l.flatMap g).foldl f s = l.foldl (fun acc x => (g x).foldl f acc) s := by
  intro l
  induction l with
  | nil => intro s; rfl
  | cons x xs ih =>
    intro s
    rw [List.flatMap_cons, List.foldl_append, List.foldl_cons, ih]

/-- Claim C4: in each of the exactly `NUM_ITERS = 8` passes, every stored
rating performs `err = r - (globalMean + userBias[u] + itemBias[i])` from
the CURRENT biases, then `userBias[u] += ALPHA * (err - REG * userBias[u])`
and `itemBias[i] += ALPHA * (err - REG * itemBias[i])`, both from the
pre-update values of that step; no other entry moves, and a pass is the
left fold of these steps over the ratings in stored `(user, item)` order,
so later ratings in a pass read the earlier partial updates. -/
theorem biasFit_step_and_passes (μ : ℚ) (ub : List (Nat × ℚ)) (ib : List ℚ)
    (u i : Nat) (r : ℚ) (h : i < ib.length) :
    alookup (biasStep μ u i r (ub, ib)).1 u
        = some (aget0 ub u
            + ALPHA * ((r - (μ + aget0 ub u + ib.getD i 0)) - REG * aget0 ub u))
      ∧ (biasStep μ u i r (ub, ib)).2.getD i 0
        = ib.getD i 0
            + ALPHA * ((r - (μ + aget0 ub u + ib.getD i 0)) - REG * ib.getD i 0)
      ∧ (∀ w, w ≠ u → alookup (biasStep μ u i r (ub, ib)).1 w = alookup ub w)
      ∧ (∀ j, j ≠ i → (biasStep μ u i r (ub, ib)).2.getD j 0 = ib.getD j 0)
      ∧ NUM_ITERS = 8
      ∧ (∀ st maxI, fitBiases μ st maxI
          = (biasPass μ st)^[8] (initUserBias st, List.replicate (maxI + 1) 0))
      ∧ (∀ st s, biasPass μ st s
          = (st.flatMap (fun p => p.2.map (fun q => (p.1, q)))).foldl
              (fun a e => biasStep μ e.1 e.2.1 e.2.2 a) s) := by
  refine ⟨?_, ?_, ?_, ?_, rfl, fun st maxI => rfl, ?_⟩
  · show alookup (alSet (ensure ub u 0) u _) u = _
    rw [alSet, alookup_alModify_self, aget0_ensure_self]
  · show (ib.set i (ib.getD i 0
        + ALPHA * ((r - (μ + aget0 (ensure ub u 0) u + ib.getD i 0))
          - REG * ib.getD i 0))).getD i 0 = _
    rw [aget0_ensure_self]
    exact list_getD_set_self ib i _ 0 h
  · intro w hw
    show alookup (alSet (ensure ub u 0) u _) w = _
    rw [alSet, alookup_alModify_ne _ _ _ _ _ hw, alookup_ensure_ne _ _ _ _ hw]
  · intro j hj
    exact list_getD_set_ne ib i j _ 0 (fun e => hj e.symm)
  · intro st s
    rw [foldl_flatMap]
    unfold biasPass
    congr 1
    funext acc p
    rw [List.foldl_map]

/-- Witness for `biasFit_step_and_passes` at μ = 0, empty user biases,
itemBias [0, 0], rating (u, i, r) = (0, 1, 1). -/
theorem biasFit_step_witness :
    (1 : Nat) < ([0, 0] : List ℚ).length
      ∧ alookup (biasStep 0 0 1 1 ([], [0, 0])).1 0
        = some (aget0 [] 0
            + ALPHA * ((1 - (0 + aget0 [] 0 + ([0, 0] : List ℚ).getD 1 0))
              - REG * aget0 [] 0)) :=
  ⟨by decide, (biasFit_step_and_passes 0 [] [0, 0] 0 1 1 (by decide)).1⟩

/-! ## Claim C8: empty training set -/

theorem empty_build_eq (sqrtFn powFn : ℚ → ℚ) :
    buildModel sqrtFn powFn [] = ⟨[], 7 / 2, [], [0], 0, []⟩ := rfl

theorem step_empty_model (sqrtFn powFn : ℚ → ℚ) (q : Nat × Nat) :
    step (buildModel sqrtFn powFn []) q = (7 / 2, buildModel sqrtFn powFn []) := by
  rw [empty_build_eq]
  show (baselineOf (⟨[], 7 / 2, [], [0], 0, []⟩ : Model) q.1 q.2,
        (⟨[], 7 / 2, [], [0], 0, []⟩ : Model))
      = ((7 : ℚ) / 2, (⟨[], 7 / 2, [], [0], 0, []⟩ : Model))
  have hb : baselineOf (⟨[], 7 / 2, [], [0], 0, []⟩ : Model) q.1 q.2 = 7 / 2 := by
    show (if 1 ≤ q.2 ∧ q.2 ≤ 0 then (7 : ℚ) / 2 + ([0] : List ℚ).getD q.2 0
          else (7 : ℚ) / 2) = 7 / 2
    rw [if_neg (by omega)]
  rw [hb]

/-- Claim C8: with zero training records globalMean is exactly 3.5, the user
bias map is empty, the item bias vector is the single cell `[0]`, there are
no neighbor sets, and every query of every query stream is answered with
exactly 3.5 (and the model is unchanged). -/
theorem empty_training_defaults (sqrtFn powFn : ℚ → ℚ) (qs : List (Nat × Nat)) :
    runQueries (buildModel sqrtFn powFn []) qs
        = (qs.map (fun _ => (7 : ℚ) / 2), buildModel sqrtFn powFn [])
      ∧ (buildModel sqrtFn powFn []).userBias = []
      ∧ (buildModel sqrtFn powFn []).itemBias = [0]
      ∧ (buildModel sqrtFn powFn []).topNeighbors = []
      ∧ (buildModel sqrtFn powFn []).globalMean = 7 / 2 := by
  refine ⟨?_, rfl, rfl, rfl, rfl⟩
  induction qs with
  | nil => rfl
  | cons q qs ih =>
    rw [show runQueries (buildModel sqrtFn powFn []) (q :: qs)
        = ((step (buildModel sqrtFn powFn []) q).1
            :: (runQueries (step (buildModel sqrtFn powFn []) q).2 qs).1,
           (runQueries (step (buildModel sqrtFn powFn []) q).2 qs).2) from rfl]
    rw [step_empty_model]
    dsimp only
    rw [ih]
    rfl

/-! ## Claim C2: the query baseline -/

theorem ingest_max_mono : ∀ (recs : List (Nat × Nat × ℚ)) (s : Ingest),
    s.maxItemId ≤ (recs.foldl ingestStep s).maxItemId
      ∧ s.maxUserId ≤ (recs.foldl ingestStep s).maxUserId := by
  intro recs
  induction recs with
  | nil => intro s; exact ⟨le_refl _, le_refl _⟩
  | cons t ts ih =>
    intro s
    obtain ⟨h1, h2⟩ := ih (ingestStep s t)
    rw [List.foldl_cons]
    constructor
    · exact le_trans (by simp [ingestStep]) h1
    · exact le_trans (by simp [ingestStep]) h2

theorem ingest_max_bound : ∀ (recs : List (Nat × Nat × ℚ)) (s : Ingest)
    (t : Nat × Nat × ℚ), t ∈ recs →
    t.2.1 ≤ (recs.foldl ingestStep s).maxItemId
      ∧ t.1 ≤ (recs.foldl ingestStep s).maxUserId := by
  intro recs
  induction recs with
  | nil => intro s t ht; simp at ht
  | cons x ts ih =>
    intro s t ht
    rw [List.foldl_cons]
    rcases List.mem_cons.mp ht with h | h
    · subst h
      obtain ⟨h1, h2⟩ := ingest_max_mono ts (ingestStep s t)
      constructor
      · exact le_trans (by simp [ingestStep]) h1
      · exact le_trans (by simp [ingestStep]) h2
    · exact ih (ingestStep s x) t h

/-- Claim C2 (amended): the baseline adds `userBias[userId]` exactly when the
user is in the bias map, and adds `itemBias[itemId]` exactly when
`1 ≤ itemId ≤ maxItemId` — item id 0 is ALWAYS excluded by the lower bound
of the range check at line 242, even if item 0 was rated in training.  Every
id appearing in a training record is within the observed maxima. -/
theorem baseline_formula_range_one_to_max (sqrtFn powFn : ℚ → ℚ)
    (recs : List (Nat × Nat × ℚ)) (u i : Nat) :
    baselineOf (buildModel sqrtFn powFn recs) u i
        = globalMeanOf (ingestAll recs)
          + (alookup (biasesOf recs).1 u).getD 0
          + (if 1 ≤ i ∧ i ≤ (ingestAll recs).maxItemId
             then (biasesOf recs).2.getD i 0 else 0)
      ∧ (∀ u' i' r', (u', i', r') ∈ recs →
          i' ≤ (ingestAll recs).maxItemId ∧ u' ≤ (ingestAll recs).maxUserId) := by
  constructor
  · unfold baselineOf
    dsimp only
    show (if 1 ≤ i ∧ i ≤ (ingestAll recs).maxItemId
          then (match alookup (biasesOf recs).1 u with
                | some bu => globalMeanOf (ingestAll recs) + bu
                | none => globalMeanOf (ingestAll recs))
            + (biasesOf recs).2.getD i 0
          else (match alookup (biasesOf recs).1 u with
                | some bu => globalMeanOf (ingestAll recs) + bu
                | none => globalMeanOf (ingestAll recs))) = _
    cases hu : alookup (biasesOf recs).1 u with
    | none =>
      by_cases hi : 1 ≤ i ∧ i ≤ (ingestAll recs).maxItemId
      · rw [if_pos hi, if_pos hi]
        simp
      · rw [if_neg hi, if_neg hi]
        simp
    | some bu =>
      by_cases hi : 1 ≤ i ∧ i ≤ (ingestAll recs).maxItemId
      · rw [if_pos hi, if_pos hi]
        simp
      · rw [if_neg hi, if_neg hi]
        simp
  · intro u' i' r' hmem
    exact ingest_max_bound recs ingest0 (u', i', r') hmem

/-- Witness for `baseline_formula_range_one_to_max` at the training stream
`[(1, 2, 5)]` and query `(1, 2)`. -/
theorem baseline_formula_witness :
    baselineOf (buildModel (fun _ => 0) (fun x => x) [(1, 2, (5 : ℚ))]) 1 2
        = globalMeanOf (ingestAll [(1, 2, (5 : ℚ))])
          + (alookup (biasesOf [(1, 2, (5 : ℚ))]).1 1).getD 0
          + (if 1 ≤ 2 ∧ 2 ≤ (ingestAll [(1, 2, (5 : ℚ))]).maxItemId
             then (biasesOf [(1, 2, (5 : ℚ))]).2.getD 2 0 else 0)
      ∧ 2 ≤ (ingestAll [(1, 2, (5 : ℚ))]).maxItemId :=
  ⟨(baseline_formula_range_one_to_max (fun _ => 0) (fun x => x) [(1, 2, 5)] 1 2).1,
   ((baseline_formula_range_one_to_max (fun _ => 0) (fun x => x) [(1, 2, 5)] 1 2).2
     1 2 5 (by simp)).1⟩

/-- The training stream of the claim C2 counterexample: all ratings are on
item id 0, so `maxItemId = 0`, the dot-product stage visits no item, and
`topNeighbors` stays empty. -/
def recs02 : List (Nat × Nat × ℚ) := [(1, 0, 5), (2, 0, 1)]

/-- Counterexample to claim C2 as stated: after training on `recs02` the
fitted `itemBias[0]` is nonzero and item 0 is rated in the store, yet the
query `(1, 0)` is answered with `globalMean + userBias[1]` alone — the
`itemId >= 1` half of the range check at line 242 excludes item id 0. -/
theorem baseline_omits_item_zero_bias :
    (step (buildModel (fun _ => 0) (fun x => x) recs02) (1, 0)).1
        = globalMeanOf (ingestAll recs02) + aget0 (biasesOf recs02).1 1
      ∧ (biasesOf recs02).2.getD 0 0 ≠ 0
      ∧ (ratedBy (ingestAll recs02).store 1 0).isSome = true
      ∧ (step (buildModel (fun _ => 0) (fun x => x) recs02) (1, 0)).1
        ≠ globalMeanOf (ingestAll recs02) + aget0 (biasesOf recs02).1 1
          + (biasesOf recs02).2.getD 0 0 := by
  have hbi : (biasesOf recs02).2.getD 0 0 ≠ 0 := by with_unfolding_all decide
  have hstep : (step (buildModel (fun _ => 0) (fun x => x) recs02) (1, 0)).1
      = baselineOf (buildModel (fun _ => 0) (fun x => x) recs02) 1 0 := rfl
  have hb : baselineOf (buildModel (fun _ => 0) (fun x => x) recs02) 1 0
      = globalMeanOf (ingestAll recs02) + aget0 (biasesOf recs02).1 1 := by
    unfold baselineOf
    dsimp only
    rw [if_neg (by omega)]
    rw [show (buildModel (fun _ => 0) (fun x => x) recs02).userBias
        = (biasesOf recs02).1 from rfl,
      show (buildModel (fun _ => 0) (fun x => x) recs02).globalMean
        = globalMeanOf (ingestAll recs02) from rfl]
    cases hu : alookup (biasesOf recs02).1 1 with
    | none => simp [aget0, hu]
    | some bu => simp [aget0, hu]
  refine ⟨hstep.trans hb, hbi, by decide, ?_⟩
  rw [hstep.trans hb]
  intro e
  exact hbi (self_eq_add_right.mp e)

/-! ## Claim C7: symmetric registration -/

theorem mem_entryRegs_symm (sqrtFn powFn : ℚ → ℚ) (mag : Nat → ℚ)
    (e : (Nat × Nat) × ℚ × Nat) (a b : Nat) (t : ℚ) :
    (a, b, t) ∈ entryRegs sqrtFn powFn mag e
      ↔ (b, a, t) ∈ entryRegs sqrtFn powFn mag e := by
  unfold entryRegs
  cases finalSimOpt sqrtFn powFn mag e with
  | none => simp
  | some s =>
    simp only [List.mem_cons, List.mem_singleton, List.not_mem_nil, or_false]
    constructor
    · rintro (h | h)
      · rw [Prod.ext_iff] at h
        obtain ⟨h1, h2⟩ := h
        rw [Prod.ext_iff] at h2
        right
        rw [Prod.ext_iff, Prod.ext_iff]
        exact ⟨h2.1, h1, h2.2⟩
      · rw [Prod.ext_iff] at h
        obtain ⟨h1, h2⟩ := h
        rw [Prod.ext_iff] at h2
        left
        rw [Prod.ext_iff, Prod.ext_iff]
        exact ⟨h2.1, h1, h2.2⟩
    · rintro (h | h)
      · rw [Prod.ext_iff] at h
        obtain ⟨h1, h2⟩ := h
        rw [Prod.ext_iff] at h2
        right
        rw [Prod.ext_iff, Prod.ext_iff]
        exact ⟨h2.1, h1, h2.2⟩
      · rw [Prod.ext_iff] at h
        obtain ⟨h1, h2⟩ := h
        rw [Prod.ext_iff] at h2
        left
        rw [Prod.ext_iff, Prod.ext_iff]
        exact ⟨h2.1, h1, h2.2⟩

theorem buildNeighbors_eq_regs_fold (sqrtFn powFn : ℚ → ℚ) (mag : Nat → ℚ) :
    ∀ (dotl : List ((Nat × Nat) × ℚ × Nat)) (tn : List (Nat × List Similarity)),
      dotl.foldl (simStep sqrtFn powFn mag) tn
        = (dotl.flatMap (entryRegs sqrtFn powFn mag)).foldl
            (fun tn r => pushCand tn r.1 ⟨r.2.1, r.2.2⟩) tn := by
  intro dotl
  induction dotl with
  | nil => intro tn; rfl
  | cons e es ih =>
    intro tn
    rw [List.flatMap_cons, List.foldl_append, List.foldl_cons]
    rw [show (es.foldl (simStep sqrtFn powFn mag) (simStep sqrtFn powFn mag tn e))
        = (es.foldl (simStep sqrtFn powFn mag) (simStep sqrtFn powFn mag tn e)) from rfl]
    rw [ih]
    congr 1
    unfold simStep entryRegs
    cases finalSimOpt sqrtFn powFn mag e with
    | none => rfl
    | some s => rfl

/-- Claim C7: whenever an accumulated pair `(uA, uB)` passes the positivity
guards (`finalSimOpt = some s`, i.e. `finalSim > 0`), the similarity stage
registers BOTH `(uB, s)` as a candidate of `uA` and `(uA, s)` as a candidate
of `uB`, with the identical value; the registration stream is symmetric as a
whole, and the neighbor stage is exactly the fold of the bounded insertions
of that stream (so before top-K truncation each user sees the other). -/
theorem similarity_registration_symmetric (sqrtFn powFn : ℚ → ℚ)
    (mag : Nat → ℚ) (dotl : List ((Nat × Nat) × ℚ × Nat))
    (e : (Nat × Nat) × ℚ × Nat) (s : ℚ)
    (he : e ∈ dotl) (hs : finalSimOpt sqrtFn powFn mag e = some s) :
    (e.1.1, e.1.2, s) ∈ regsOf sqrtFn powFn mag dotl
      ∧ (e.1.2, e.1.1, s) ∈ regsOf sqrtFn powFn mag dotl
      ∧ (∀ a b t, (a, b, t) ∈ regsOf sqrtFn powFn mag dotl
          ↔ (b, a, t) ∈ regsOf sqrtFn powFn mag dotl)
      ∧ buildNeighbors sqrtFn powFn mag dotl
        = (regsOf sqrtFn powFn mag dotl).foldl
            (fun tn r => pushCand tn r.1 ⟨r.2.1, r.2.2⟩) [] := by
  refine ⟨?_, ?_, ?_, ?_⟩
  · apply List.mem_flatMap.mpr
    refine ⟨e, he, ?_⟩
    unfold entryRegs
    rw [hs]
    simp
  · apply List.mem_flatMap.mpr
    refine ⟨e, he, ?_⟩
    unfold entryRegs
    rw [hs]
    simp
  · intro a b t
    constructor
    · intro h
      obtain ⟨x, hx, hmem⟩ := List.mem_flatMap.mp h
      exact List.mem_flatMap.mpr ⟨x, hx, (mem_entryRegs_symm _ _ _ x a b t).mp hmem⟩
    · intro h
      obtain ⟨x, hx, hmem⟩ := List.mem_flatMap.mp h
      exact List.mem_flatMap.mpr ⟨x, hx, (mem_entryRegs_symm _ _ _ x b a t).mp hmem⟩
  · exact buildNeighbors_eq_regs_fold sqrtFn powFn mag dotl []

/-- Witness for `similarity_registration_symmetric` at a concrete
accumulator entry: pair (1, 2) with dot 3, co-count 5, magnitudes 4,
`sqrtFn` returning 2 and `powFn` the identity gives
rawSim = 3/4 > 0, factor = 5/15, finalSim = 1/4 > 0. -/
theorem similarity_registration_witness :
    finalSimOpt (fun _ => 2) (fun x => x) (fun _ => 4) ((1, 2), 3, 5)
        = some (1 / 4)
      ∧ (1, 2, (1 : ℚ) / 4)
        ∈ regsOf (fun _ => 2) (fun x => x) (fun _ => 4) [((1, 2), 3, 5)]
      ∧ (2, 1, (1 : ℚ) / 4)
        ∈ regsOf (fun _ => 2) (fun x => x) (fun _ => 4) [((1, 2), 3, 5)] := by
  have hs : finalSimOpt (fun _ => 2) (fun x => x) (fun _ => 4) ((1, 2), 3, 5)
      = some (1 / 4) := by with_unfolding_all decide
  have h := similarity_registration_symmetric (fun _ => 2) (fun x => x)
    (fun _ => 4) [((1, 2), 3, 5)] ((1, 2), 3, 5) (1 / 4) (by simp) hs
  exact ⟨hs, h.1, h.2.1⟩

/-! ## Claims C9/C10: key invariants of the fitted model -/

theorem foldl_preserves {α β : Type} (P : β → Prop) (f : β → α → β) :
    ∀ (l : List α) (b : β),
      (∀ x ∈ l, ∀ acc, P acc → P (f acc x)) → P b → P (l.foldl f b) := by
  intro l
  induction l with
  | nil => intro b _ hb; exact hb
  | cons x xs ih =>
    intro b h hb
    rw [List.foldl_cons]
    exact ih (f b x) (fun y hy acc hacc => h y (List.mem_cons_of_mem _ hy) acc hacc)
      (h x (by simp) b hb)

/-- Key presence, the observable of `unordered_map::find != end`. -/
def hasKey {κ α : Type} [DecidableEq κ] (m : List (κ × α)) (q : κ) : Prop :=
  (alookup m q).isSome = true

theorem hasKey_alModify {κ α : Type} [DecidableEq κ]
    (f : α → α) (d : α) (m : List (κ × α)) (q w : κ) :
    hasKey (alModify f d m q) w ↔ hasKey m w ∨ w = q := by
  by_cases hw : w = q
  · subst hw
    rw [hasKey, alookup_alModify_self]
    simp
  · rw [hasKey, alookup_alModify_ne _ _ _ _ _ hw]
    simp [hasKey, hw]

theorem hasKey_ensure {κ α : Type} [DecidableEq κ]
    (m : List (κ × α)) (q : κ) (d : α) (w : κ) :
    hasKey (ensure m q d) w ↔ hasKey m w ∨ w = q := by
  by_cases hw : w = q
  · subst hw
    rw [hasKey, alookup_ensure_self]
    simp
  · rw [hasKey, alookup_ensure_ne _ _ _ _ hw]
    simp [hasKey, hw]

theorem hasKey_biasStep (μ : ℚ) (u i : Nat) (r : ℚ)
    (s : List (Nat × ℚ) × List ℚ) (w : Nat) :
    hasKey (biasStep μ u i r s).1 w ↔ hasKey s.1 w ∨ w = u := by
  show hasKey (alSet (ensure s.1 u 0) u _) w ↔ _
  rw [alSet, hasKey_alModify, hasKey_ensure]
  tauto

/-- The user ids of the store, in store order. -/
def storeKeys (st : Store) : List Nat := st.map Prod.fst

theorem hasKey_initUserBias (st : Store) (w : Nat) :
    hasKey (initUserBias st) w ↔ w ∈ storeKeys st := by
  rw [hasKey, alookup_isSome_iff_memKeys]
  unfold initUserBias storeKeys
  rw [List.map_map]
  rfl

theorem hasKey_biasPass (μ : ℚ) (st : Store) (s : List (Nat × ℚ) × List ℚ)
    (hinv : ∀ w, hasKey s.1 w ↔ w ∈ storeKeys st) :
    ∀ w, hasKey (biasPass μ st s).1 w ↔ w ∈ storeKeys st := by
  unfold biasPass
  refine foldl_preserves (fun acc => ∀ w, hasKey acc.1 w ↔ w ∈ storeKeys st)
    _ st s ?_ hinv
  intro p hp acc hacc
  refine foldl_preserves (fun acc => ∀ w, hasKey acc.1 w ↔ w ∈ storeKeys st)
    _ p.2 acc ?_ hacc
  intro q hq acc2 hacc2 w
  rw [hasKey_biasStep, hacc2]
  constructor
  · rintro (h | h)
    · exact h
    · rw [h]
      exact List.mem_map.mpr ⟨p, hp, rfl⟩
  · exact fun h => Or.inl h

theorem hasKey_fit (μ : ℚ) (st : Store) (maxI : Nat) (w : Nat) :
    hasKey (fitBiases μ st maxI).1 w ↔ w ∈ storeKeys st := by
  unfold fitBiases
  suffices h : ∀ (n : Nat) (s : List (Nat × ℚ) × List ℚ),
      (∀ w, hasKey s.1 w ↔ w ∈ storeKeys st) →
      ∀ w, hasKey ((biasPass μ st)^[n] s).1 w ↔ w ∈ storeKeys st by
    exact h NUM_ITERS _ (fun w => hasKey_initUserBias st w) w
  intro n
  induction n with
  | zero => intro s hs; exact hs
  | succ k ih =>
    intro s hs
    rw [Function.iterate_succ_apply]
    exact ih _ (hasKey_biasPass μ st s hs)

theorem pairsOf_mem {α : Type} :
    ∀ {l : List α} {p : α × α}, p ∈ pairsOf l → p.1 ∈ l ∧ p.2 ∈ l := by
  intro l
  induction l with
  | nil => intro p h; simp [pairsOf] at h
  | cons x xs ih =>
    intro p h
    rw [pairsOf] at h
    rcases List.mem_append.mp h with h | h
    · obtain ⟨y, hy, he⟩ := List.mem_map.mp h
      rw [← he]
      exact ⟨by simp, List.mem_cons_of_mem _ hy⟩
    · obtain ⟨h1, h2⟩ := ih h
      exact ⟨List.mem_cons_of_mem _ h1, List.mem_cons_of_mem _ h2⟩

theorem itemRaters_fst_mem (μ : ℚ) (ub : List (Nat × ℚ)) (ib : List ℚ)
    (st : Store) (i : Nat) :
    ∀ p ∈ itemRaters μ ub ib st i, p.1 ∈ storeKeys st := by
  intro p hp
  obtain ⟨q, hq, he⟩ := List.mem_filterMap.mp hp
  cases hr : alookup q.2 i with
  | none => rw [hr] at he; simp at he
  | some r =>
    rw [hr] at he
    have he2 : (q.1, r - (μ + aget0 ub q.1 + ib.getD i 0)) = p := by
      simpa using he
    have hfst : p.1 = q.1 := by rw [← he2]
    rw [hfst]
    exact List.mem_map.mpr ⟨q, hq, rfl⟩

theorem dotStep_keys (d : List ((Nat × Nat) × ℚ × Nat))
    (pq : (Nat × ℚ) × (Nat × ℚ)) (S : List Nat)
    (hd : ∀ e ∈ d, e.1.1 ∈ S ∧ e.1.2 ∈ S)
    (h1 : pq.1.1 ∈ S) (h2 : pq.2.1 ∈ S) :
    ∀ e ∈ dotStep d pq, e.1.1 ∈ S ∧ e.1.2 ∈ S := by
  intro e he
  unfold dotStep at he
  dsimp only at he
  rcases mem_alModify _ _ he with h | ⟨w, hw1, hw2⟩
  · exact hd e h
  · rw [hw1]
    dsimp only
    unfold orientPair
    split
    · exact ⟨h2, h1⟩
    · exact ⟨h1, h2⟩

theorem dotAccum_keys (μ : ℚ) (ub : List (Nat × ℚ)) (ib : List ℚ)
    (st : Store) (maxI : Nat) :
    ∀ e ∈ dotAccum μ ub ib st maxI,
      e.1.1 ∈ storeKeys st ∧ e.1.2 ∈ storeKeys st := by
  unfold dotAccum
  refine foldl_preserves
    (fun d : List ((Nat × Nat) × ℚ × Nat) =>
      ∀ e ∈ d, e.1.1 ∈ storeKeys st ∧ e.1.2 ∈ storeKeys st)
    _ _ [] ?_ ?_
  · intro i hi d hd
    refine foldl_preserves
      (fun d : List ((Nat × Nat) × ℚ × Nat) =>
        ∀ e ∈ d, e.1.1 ∈ storeKeys st ∧ e.1.2 ∈ storeKeys st)
      _ _ d ?_ hd
    intro pq hpq d2 hd2
    obtain ⟨hp1, hp2⟩ := pairsOf_mem hpq
    exact dotStep_keys d2 pq _ hd2 (itemRaters_fst_mem μ ub ib st i _ hp1)
      (itemRaters_fst_mem μ ub ib st i _ hp2)
  · intro e he
    simp at he

/-- The users named anywhere in the neighbor structure are store users. -/
def TNInv (S : List Nat) (tn : List (Nat × List Similarity)) : Prop :=
  ∀ p ∈ tn, p.1 ∈ S ∧ ∀ e ∈ p.2, e.userB ∈ S

theorem pushCand_inv (S : List Nat) (tn : List (Nat × List Similarity))
    (u : Nat) (c : Similarity) (h : TNInv S tn) (hu : u ∈ S)
    (hc : c.userB ∈ S) : TNInv S (pushCand tn u c) := by
  intro p hp
  unfold pushCand at hp
  rcases mem_alModify _ _ hp with hm | ⟨w, hw1, hw2⟩
  · exact h p hm
  · rw [hw1]
    refine ⟨hu, ?_⟩
    intro e he
    rcases mem_boundedInsert he with h1 | h1
    · rcases hw2 with h2 | h2
      · rw [h2] at h1
        simp at h1
      · exact (h _ h2).2 e h1
    · rw [h1]
      exact hc

theorem buildNeighbors_inv (sqrtFn powFn : ℚ → ℚ) (mag : Nat → ℚ)
    (dotl : List ((Nat × Nat) × ℚ × Nat)) (S : List Nat)
    (hd : ∀ e ∈ dotl, e.1.1 ∈ S ∧ e.1.2 ∈ S) :
    TNInv S (buildNeighbors sqrtFn powFn mag dotl) := by
  unfold buildNeighbors
  refine foldl_preserves (TNInv S) _ dotl [] ?_ (by intro p hp; simp at hp)
  intro e he tn htn
  unfold simStep
  cases finalSimOpt sqrtFn powFn mag e with
  | none => exact htn
  | some s =>
    obtain ⟨h1, h2⟩ := hd e he
    exact pushCand_inv S _ _ _ (pushCand_inv S tn _ _ htn h1 h2) h2 h1

theorem mem_drainAux : ∀ (fuel : Nat) (l : List Similarity) (x : Similarity),
    x ∈ drainAux fuel l → x ∈ l := by
  intro fuel
  induction fuel with
  | zero => intro l x h; simp [drainAux] at h
  | succ n ih =>
    intro l x h
    cases l with
    | nil => simp [drainAux] at h
    | cons a t =>
      rw [show drainAux (n + 1) (a :: t)
          = heapTop (a :: t) :: drainAux n (heapPop (a :: t)) from rfl] at h
      rcases List.mem_cons.mp h with h | h
      · rw [h]
        exact getD_mem (a :: t) 0 (by simp)
      · exact mem_heapPop (ih (heapPop (a :: t)) x h)

theorem mem_drain {l : List Similarity} {x : Similarity}
    (h : x ∈ drain l) : x ∈ l :=
  mem_drainAux l.length l x h

theorem neighStep_state (μ : ℚ) (ib : List ℚ) (maxI itemId : Nat)
    (st0 : Store) (ub0 : List (Nat × ℚ))
    (acc : ℚ × ℚ × Store × List (Nat × ℚ)) (t : Similarity)
    (hst : acc.2.2.1 = st0) (hub : acc.2.2.2 = ub0)
    (h1 : hasKey st0 t.userB) (h2 : hasKey ub0 t.userB) :
    (neighStep μ ib maxI itemId acc t).2.2.1 = st0
      ∧ (neighStep μ ib maxI itemId acc t).2.2.2 = ub0 := by
  unfold neighStep
  dsimp only
  rw [hst, hub, alGetIns_of_isSome _ h1]
  dsimp only
  cases alookup ((alookup st0 t.userB).getD []) itemId with
  | none => exact ⟨rfl, rfl⟩
  | some nr =>
    dsimp only
    rw [alGetIns_of_isSome _ h2]
    exact ⟨rfl, rfl⟩

theorem step_state_eq (m : Model) (q : Nat × Nat)
    (hkeys : ∀ w, hasKey m.userBias w ↔ w ∈ storeKeys m.store)
    (htn : TNInv (storeKeys m.store) m.topNeighbors) :
    (step m q).2 = m := by
  unfold step
  dsimp only
  cases ht : alookup m.topNeighbors q.1 with
  | none => rfl
  | some pq =>
    dsimp only
    have helems : ∀ e ∈ pq, e.userB ∈ storeKeys m.store :=
      (htn _ (alookup_mem ht)).2
    have hfold := foldl_preserves
      (fun acc : ℚ × ℚ × Store × List (Nat × ℚ) =>
        acc.2.2.1 = m.store ∧ acc.2.2.2 = m.userBias)
      (neighStep m.globalMean m.itemBias m.maxItemId q.2) (drain pq)
      (0, 0, m.store, m.userBias)
      (by
        intro t ht2 acc hacc
        have hmem := helems t (mem_drain ht2)
        exact neighStep_state m.globalMean m.itemBias m.maxItemId q.2
          m.store m.userBias acc t hacc.1 hacc.2
          ((alookup_isSome_iff_memKeys _ _).mpr hmem)
          ((hkeys t.userB).mpr hmem))
      ⟨rfl, rfl⟩
    rw [hfold.1, hfold.2]

theorem buildModel_hasKeys (sqrtFn powFn : ℚ → ℚ)
    (recs : List (Nat × Nat × ℚ)) :
    (∀ w, hasKey (buildModel sqrtFn powFn recs).userBias w
        ↔ w ∈ storeKeys (buildModel sqrtFn powFn recs).store)
      ∧ TNInv (storeKeys (buildModel sqrtFn powFn recs).store)
          (buildModel sqrtFn powFn recs).topNeighbors := by
  constructor
  · intro w
    show hasKey (biasesOf recs).1 w ↔ w ∈ storeKeys (ingestAll recs).store
    exact hasKey_fit _ _ _ w
  · show TNInv (storeKeys (ingestAll recs).store)
      (topNeighborsOf sqrtFn powFn recs)
    exact buildNeighbors_inv _ _ _ _ _ (dotAccum_keys _ _ _ _ _)

/-- Claim C10: processing queries never modifies the model — the state after
the whole query stream is the fitted model itself, and each emitted
prediction is a pure function of the model and that query alone (so the
answer to a query does not depend on the queries before or after it). -/
theorem queries_do_not_mutate_model (sqrtFn powFn : ℚ → ℚ)
    (recs : List (Nat × Nat × ℚ)) (qs : List (Nat × Nat)) :
    runQueries (buildModel sqrtFn powFn recs) qs
      = (qs.map (fun q => (step (buildModel sqrtFn powFn recs) q).1),
         buildModel sqrtFn powFn recs) := by
  obtain ⟨h1, h2⟩ := buildModel_hasKeys sqrtFn powFn recs
  induction qs with
  | nil => rfl
  | cons q qs ih =>
    rw [show runQueries (buildModel sqrtFn powFn recs) (q :: qs)
        = ((step (buildModel sqrtFn powFn recs) q).1
            :: (runQueries (step (buildModel sqrtFn powFn recs) q).2 qs).1,
           (runQueries (step (buildModel sqrtFn powFn recs) q).2 qs).2) from rfl]
    rw [step_state_eq _ q h1 h2, ih]
    rfl

/-- Claim C9: a query for a user who never appears in the training stream
raises no error: the user is in neither the bias map nor the neighbor map,
so the bias term and the neighbor vote are skipped and the prediction is
`globalMean` plus the item-bias term alone; the model is untouched. -/
theorem unseen_user_baseline_only (sqrtFn powFn : ℚ → ℚ)
    (recs : List (Nat × Nat × ℚ)) (u i : Nat)
    (h : u ∉ storeKeys (ingestAll recs).store) :
    (step (buildModel sqrtFn powFn recs) (u, i)).1
        = globalMeanOf (ingestAll recs)
          + (if 1 ≤ i ∧ i ≤ (ingestAll recs).maxItemId
             then (biasesOf recs).2.getD i 0 else 0)
      ∧ alookup (buildModel sqrtFn powFn recs).topNeighbors u = none
      ∧ alookup (buildModel sqrtFn powFn recs).userBias u = none
      ∧ (step (buildModel sqrtFn powFn recs) (u, i)).2
        = buildModel sqrtFn powFn recs := by
  obtain ⟨h1, h2⟩ := buildModel_hasKeys sqrtFn powFn recs
  have hub : alookup (buildModel sqrtFn powFn recs).userBias u = none := by
    cases hu : alookup (buildModel sqrtFn powFn recs).userBias u with
    | none => rfl
    | some v =>
      exfalso
      apply h
      apply (h1 u).mp
      rw [hasKey, hu]
      rfl
  have htn : alookup (buildModel sqrtFn powFn recs).topNeighbors u = none := by
    cases htv : alookup (buildModel sqrtFn powFn recs).topNeighbors u with
    | none => rfl
    | some pq =>
      exfalso
      exact h ((h2 _ (alookup_mem htv)).1)
  refine ⟨?_, htn, hub, step_state_eq _ _ h1 h2⟩
  have hstep : (step (buildModel sqrtFn powFn recs) (u, i)).1
      = baselineOf (buildModel sqrtFn powFn recs) u i := by
    unfold step
    dsimp only
    rw [htn]
  rw [hstep]
  unfold baselineOf
  dsimp only
  rw [hub]
  show (if 1 ≤ i ∧ i ≤ (ingestAll recs).maxItemId
        then globalMeanOf (ingestAll recs) + (biasesOf recs).2.getD i 0
        else globalMeanOf (ingestAll recs)) = _
  by_cases hi : 1 ≤ i ∧ i ≤ (ingestAll recs).maxItemId
  · rw [if_pos hi, if_pos hi]
  · rw [if_neg hi, if_neg hi, add_zero]

/-- Witness for `unseen_user_baseline_only`: the user 5 never appears in the
training stream `[(1, 1, 4)]`. -/
theorem unseen_user_witness :
    (5 ∉ storeKeys (ingestAll [(1, 1, (4 : ℚ))]).store)
      ∧ (step (buildModel (fun _ => 0) (fun x => x) [(1, 1, (4 : ℚ))]) (5, 1)).1
        = globalMeanOf (ingestAll [(1, 1, (4 : ℚ))])
          + (if 1 ≤ 1 ∧ 1 ≤ (ingestAll [(1, 1, (4 : ℚ))]).maxItemId
             then (biasesOf [(1, 1, (4 : ℚ))]).2.getD 1 0 else 0) :=
  ⟨by decide,
   (unseen_user_baseline_only (fun _ => 0) (fun x => x) [(1, 1, 4)] 5 1
     (by decide)).1⟩

/-! ## Claim C1: the accumulation ranges of the similarity stage -/

theorem keys_alModify {κ α : Type} [DecidableEq κ]
    (f : α → α) (d : α) (m : List (κ × α)) (q : κ) :
    (alModify f d m q).map Prod.fst
      = if (alookup m q).isSome = true then m.map Prod.fst
        else m.map Prod.fst ++ [q] := by
  induction m with
  | nil => simp [alModify, alookup]
  | cons p m ih =>
    obtain ⟨k, v⟩ := p
    by_cases hk : k = q
    · subst hk
      simp [alModify, alookup]
    · simp only [alModify, hk, if_false, alookup, List.map_cons]
      rw [ih]
      by_cases hs : (alookup m q).isSome = true
      · simp [hs]
      · simp [hs]

theorem nodup_keys_alModify {κ α : Type} [DecidableEq κ]
    (f : α → α) (d : α) (m : List (κ × α)) (q : κ)
    (h : (m.map Prod.fst).Nodup) : ((alModify f d m q).map Prod.fst).Nodup := by
  rw [keys_alModify]
  by_cases hs : (alookup m q).isSome = true
  · rw [if_pos hs]
    exact h
  · rw [if_neg hs]
    have hq : q ∉ m.map Prod.fst := by
      intro hmem
      exact hs ((alookup_isSome_iff_memKeys m q).mpr hmem)
    rw [List.Perm.nodup_iff (List.perm_append_singleton q (m.map Prod.fst))]
    exact List.nodup_cons.mpr ⟨hq, h⟩

/-- Well-formedness of the store: user ids are distinct, and each user's
item list has distinct item ids. -/
def StoreWF (st : Store) : Prop :=
  (st.map Prod.fst).Nodup ∧ ∀ p ∈ st, (p.2.map Prod.fst).Nodup

theorem storePut_WF (st : Store) (u i : Nat) (r : ℚ) (h : StoreWF st) :
    StoreWF (storePut st u i r) := by
  obtain ⟨h1, h2⟩ := h
  constructor
  · exact nodup_keys_alModify _ _ st u h1
  · intro p hp
    rcases mem_alModify _ _ hp with hm | ⟨w, hw1, hw2⟩
    · exact h2 p hm
    · rw [hw1]
      dsimp only
      rcases hw2 with h3 | h3
      · rw [h3]
        exact nodup_keys_alModify _ _ [] i (by simp)
      · exact nodup_keys_alModify _ _ w i (h2 (u, w) h3)

theorem ingest_WF (recs : List (Nat × Nat × ℚ)) : StoreWF (ingestAll recs).store := by
  unfold ingestAll
  have h := foldl_preserves (fun s : Ingest => StoreWF s.store) ingestStep recs ingest0
    (by
      intro t ht s hs
      exact storePut_WF s.store t.1 t.2.1 t.2.2 hs)
    (by exact ⟨by simp [ingest0], by intro p hp; simp [ingest0] at hp⟩)
  exact h

theorem itemRaters_fst_sublist (μ : ℚ) (ub : List (Nat × ℚ)) (ib : List ℚ)
    (st : Store) (i : Nat) :
    ((itemRaters μ ub ib st i).map Prod.fst).Sublist (st.map Prod.fst) := by
  induction st with
  | nil => simp [itemRaters]
  | cons p st ih =>
    unfold itemRaters at ih ⊢
    rw [List.filterMap_cons]
    cases alookup p.2 i with
    | none =>
      exact List.Sublist.cons p.1 ih
    | some r =>
      simp only [Option.map_some, List.map_cons]
      exact List.Sublist.cons₂ p.1 ih

theorem alookup_itemRaters (μ : ℚ) (ub : List (Nat × ℚ)) (ib : List ℚ)
    (st : Store) (i u : Nat) (hnd : (st.map Prod.fst).Nodup) :
    alookup (itemRaters μ ub ib st i) u
      = (ratedBy st u i).map (fun r => r - (μ + aget0 ub u + ib.getD i 0)) := by
  induction st with
  | nil => rfl
  | cons p st ih =>
    have hnd2 : (st.map Prod.fst).Nodup := (List.nodup_cons.mp hnd).2
    have hp1 : p.1 ∉ st.map Prod.fst := (List.nodup_cons.mp hnd).1
    cases hpi : alookup p.2 i with
    | none =>
      have hir : itemRaters μ ub ib (p :: st) i = itemRaters μ ub ib st i := by
        unfold itemRaters
        rw [List.filterMap_cons, hpi]
        rfl
      rw [hir]
      by_cases hu : p.1 = u
      · subst hu
        have hnone : alookup (itemRaters μ ub ib st i) p.1 = none := by
          apply alookup_eq_none_of_not_memKeys
          intro hmem
          exact hp1 ((itemRaters_fst_sublist μ ub ib st i).mem hmem)
        rw [hnone]
        unfold ratedBy
        rw [show alookup (p :: st) p.1 = some p.2 from by simp [alookup]]
        rw [show (some p.2).bind (fun items => alookup items i) = alookup p.2 i
          from rfl, hpi]
        rfl
      · have hr : ratedBy (p :: st) u i = ratedBy st u i := by
          unfold ratedBy
          rw [show alookup (p :: st) u = alookup st u from by simp [alookup, hu]]
        rw [hr]
        exact ih hnd2
    | some r =>
      have hir : itemRaters μ ub ib (p :: st) i
          = (p.1, r - (μ + aget0 ub p.1 + ib.getD i 0)) :: itemRaters μ ub ib st i := by
        unfold itemRaters
        rw [List.filterMap_cons, hpi]
        rfl
      rw [hir]
      by_cases hu : p.1 = u
      · subst hu
        rw [show alookup ((p.1, r - (μ + aget0 ub p.1 + ib.getD i 0))
            :: itemRaters μ ub ib st i) p.1
            = some (r - (μ + aget0 ub p.1 + ib.getD i 0)) from by simp [alookup]]
        unfold ratedBy
        rw [show alookup (p :: st) p.1 = some p.2 from by simp [alookup]]
        rw [show (some p.2).bind (fun items => alookup items i) = alookup p.2 i
          from rfl, hpi]
        rfl
      · rw [show alookup ((p.1, r - (μ + aget0 ub p.1 + ib.getD i 0))
            :: itemRaters μ ub ib st i) u = alookup (itemRaters μ ub ib st i) u
          from by simp [alookup, hu]]
        have hr : ratedBy (p :: st) u i = ratedBy st u i := by
          unfold ratedBy
          rw [show alookup (p :: st) u = alookup st u from by simp [alookup, hu]]
        rw [hr]
        exact ih hnd2

theorem sum_map_zero {α : Type} (L : List α) (f : α → ℚ)
    (h : ∀ x ∈ L, f x = 0) : (L.map f).sum = 0 := by
  apply List.sum_eq_zero
  intro x hx
  obtain ⟨y, hy, he⟩ := List.mem_map.mp hx
  rw [← he]
  exact h y hy

theorem sum_filter_key (L : List (Nat × ℚ)) (u : Nat) (f : ℚ → ℚ)
    (hnd : (L.map Prod.fst).Nodup) :
    (L.map (fun p => if p.1 = u then f p.2 else 0)).sum
      = match alookup L u with
        | some r => f r
        | none => 0 := by
  induction L with
  | nil => rfl
  | cons p t ih =>
    have hnd2 : (t.map Prod.fst).Nodup := (List.nodup_cons.mp hnd).2
    have hp1 : p.1 ∉ t.map Prod.fst := (List.nodup_cons.mp hnd).1
    rw [List.map_cons, List.sum_cons]
    by_cases hp : p.1 = u
    · subst hp
      rw [if_pos rfl]
      have hz : (t.map (fun q => if q.1 = p.1 then f q.2 else 0)).sum = 0 := by
        apply sum_map_zero
        intro q hq
        rw [if_neg (by
          intro e
          exact hp1 (e ▸ List.mem_map.mpr ⟨q, hq, rfl⟩))]
      rw [hz, show alookup ((p.1, p.2) :: t) p.1 = some p.2 from by simp [alookup]]
      rw [add_zero]
    · rw [if_neg hp, zero_add, ih hnd2,
        show alookup (p :: t) u = alookup t u from by simp [alookup, hp]]

theorem aget0_magStep (m : List (Nat × ℚ)) (p : Nat × ℚ) (u : Nat) :
    aget0 (magStep m p) u = aget0 m u + (if p.1 = u then p.2 * p.2 else 0) := by
  unfold magStep
  by_cases hp : p.1 = u
  · subst hp
    unfold aget0
    rw [alookup_alModify_self, if_pos rfl]
    cases alookup m p.1 <;> simp
  · unfold aget0
    rw [alookup_alModify_ne _ _ _ _ _ (fun e => hp e.symm), if_neg hp, add_zero]

theorem magStep_fold : ∀ (L : List (Nat × ℚ)) (m : List (Nat × ℚ)) (u : Nat),
    aget0 (L.foldl magStep m) u
      = aget0 m u + (L.map (fun p => if p.1 = u then p.2 * p.2 else 0)).sum := by
  intro L
  induction L with
  | nil => intro m u; simp
  | cons p t ih =>
    intro m u
    rw [List.foldl_cons, ih (magStep m p) u, aget0_magStep,
      List.map_cons, List.sum_cons, add_assoc]

theorem magnitudeMap_fold (μ : ℚ) (ub : List (Nat × ℚ)) (ib : List ℚ)
    (st : Store) : ∀ (I : List Nat) (m : List (Nat × ℚ)) (u : Nat),
    aget0 (I.foldl (fun m i => (itemRaters μ ub ib st i).foldl magStep m) m) u
      = aget0 m u
        + (I.map (fun i => ((itemRaters μ ub ib st i).map
            (fun p => if p.1 = u then p.2 * p.2 else 0)).sum)).sum := by
  intro I
  induction I with
  | nil => intro m u; simp
  | cons i t ih =>
    intro m u
    rw [List.foldl_cons, ih, magStep_fold, List.map_cons, List.sum_cons, add_assoc]

theorem magnitude_spec (recs : List (Nat × Nat × ℚ)) (u : Nat) :
    aget0 (magMapOf recs) u
      = ((List.range' 1 (ingestAll recs).maxItemId).map (fun i =>
          match ratedBy (ingestAll recs).store u i with
          | some r => residualAt recs u i r * residualAt recs u i r
          | none => 0)).sum := by
  unfold magMapOf magnitudeMap
  rw [magnitudeMap_fold]
  rw [show aget0 [] u = 0 from rfl, zero_add]
  congr 1
  apply List.map_congr_left
  intro i hi
  rw [sum_filter_key _ u (fun x => x * x)
    (((itemRaters_fst_sublist _ _ _ _ i).nodup (ingest_WF recs).1))]
  rw [alookup_itemRaters _ _ _ _ i u (ingest_WF recs).1]
  cases ratedBy (ingestAll recs).store u i with
  | none => rfl
  | some r => rfl

theorem sum_map_zero_nat {α : Type} (L : List α) (f : α → Nat)
    (h : ∀ x ∈ L, f x = 0) : (L.map f).sum = 0 := by
  apply List.sum_eq_zero
  intro x hx
  obtain ⟨y, hy, he⟩ := List.mem_map.mp hx
  rw [← he]
  exact h y hy

theorem sum_filter_key_nat (L : List (Nat × ℚ)) (u : Nat)
    (hnd : (L.map Prod.fst).Nodup) :
    (L.map (fun p => if p.1 = u then (1 : Nat) else 0)).sum
      = match alookup L u with
        | some _ => 1
        | none => 0 := by
  induction L with
  | nil => rfl
  | cons p t ih =>
    have hnd2 : (t.map Prod.fst).Nodup := (List.nodup_cons.mp hnd).2
    have hp1 : p.1 ∉ t.map Prod.fst := (List.nodup_cons.mp hnd).1
    rw [List.map_cons, List.sum_cons]
    by_cases hp : p.1 = u
    · subst hp
      rw [if_pos rfl]
      have hz : (t.map (fun q => if q.1 = p.1 then (1 : Nat) else 0)).sum = 0 := by
        apply sum_map_zero_nat
        intro q hq
        rw [if_neg (by
          intro e
          exact hp1 (e ▸ List.mem_map.mpr ⟨q, hq, rfl⟩))]
      rw [hz, show alookup ((p.1, p.2) :: t) p.1 = some p.2 from by simp [alookup]]
    · rw [if_neg hp, Nat.zero_add, ih hnd2,
        show alookup (p :: t) u = alookup t u from by simp [alookup, hp]]

theorem dotGet_dotStep (d : List ((Nat × Nat) × ℚ × Nat))
    (pq : (Nat × ℚ) × (Nat × ℚ)) (uA uB : Nat) (h : uA < uB) :
    dotGet (dotStep d pq) (uA, uB)
      = ((dotGet d (uA, uB)).1
          + (if (pq.1.1 = uA ∧ pq.2.1 = uB) ∨ (pq.1.1 = uB ∧ pq.2.1 = uA)
             then pq.1.2 * pq.2.2 else 0),
         (dotGet d (uA, uB)).2
          + (if (pq.1.1 = uA ∧ pq.2.1 = uB) ∨ (pq.1.1 = uB ∧ pq.2.1 = uA)
             then 1 else 0)) := by
  unfold dotStep
  dsimp only
  by_cases hhit : (pq.1.1 = uA ∧ pq.2.1 = uB) ∨ (pq.1.1 = uB ∧ pq.2.1 = uA)
  · rw [if_pos hhit, if_pos hhit]
    rcases hhit with ⟨h1, h2⟩ | ⟨h1, h2⟩
    · have ho : orientPair pq.1 pq.2 = (pq.1, pq.2) := by
        unfold orientPair
        rw [if_neg (by rw [h1, h2]; omega)]
      rw [ho]
      dsimp only
      rw [h1, h2]
      unfold dotGet
      rw [alookup_alModify_self]
      cases alookup d (uA, uB) with
      | none => simp
      | some sc => simp
    · have ho : orientPair pq.1 pq.2 = (pq.2, pq.1) := by
        unfold orientPair
        rw [if_pos (by rw [h1, h2]; omega)]
      rw [ho]
      dsimp only
      rw [h1, h2]
      unfold dotGet
      rw [alookup_alModify_self, mul_comm pq.2.2 pq.1.2]
      cases alookup d (uA, uB) with
      | none => simp
      | some sc => simp
  · rw [if_neg hhit, if_neg hhit, add_zero, add_zero]
    have hk : ((uA, uB) : Nat × Nat)
        ≠ ((orientPair pq.1 pq.2).1.1, (orientPair pq.1 pq.2).2.1) := by
      unfold orientPair
      split
      · intro e
        rw [Prod.mk.injEq] at e
        exact hhit (Or.inr ⟨e.2.symm, e.1.symm⟩)
      · intro e
        rw [Prod.mk.injEq] at e
        exact hhit (Or.inl ⟨e.1.symm, e.2.symm⟩)
    unfold dotGet
    rw [alookup_alModify_ne _ _ _ _ _ hk]

theorem dotStep_fold : ∀ (P : List ((Nat × ℚ) × (Nat × ℚ)))
    (d : List ((Nat × Nat) × ℚ × Nat)) (uA uB : Nat), uA < uB →
    dotGet (P.foldl dotStep d) (uA, uB)
      = ((dotGet d (uA, uB)).1
          + (P.map (fun pq =>
              if (pq.1.1 = uA ∧ pq.2.1 = uB) ∨ (pq.1.1 = uB ∧ pq.2.1 = uA)
              then pq.1.2 * pq.2.2 else 0)).sum,
         (dotGet d (uA, uB)).2
          + (P.map (fun pq =>
              if (pq.1.1 = uA ∧ pq.2.1 = uB) ∨ (pq.1.1 = uB ∧ pq.2.1 = uA)
              then (1 : Nat) else 0)).sum) := by
  intro P
  induction P with
  | nil =>
    intro d uA uB h
    simp
  | cons pq t ih =>
    intro d uA uB h
    rw [List.foldl_cons, ih (dotStep d pq) uA uB h, dotGet_dotStep d pq uA uB h]
    dsimp only
    rw [List.map_cons, List.sum_cons, List.map_cons, List.sum_cons,
      add_assoc, add_assoc]

theorem pairsOf_hit_sum_zero (L : List (Nat × ℚ)) (uA uB : Nat)
    (f : (Nat × ℚ) × (Nat × ℚ) → ℚ)
    (habs : (∀ p ∈ L, p.1 ≠ uA) ∨ (∀ p ∈ L, p.1 ≠ uB)) :
    ((pairsOf L).map (fun pq =>
        if (pq.1.1 = uA ∧ pq.2.1 = uB) ∨ (pq.1.1 = uB ∧ pq.2.1 = uA)
        then f pq else 0)).sum = 0 := by
  apply sum_map_zero
  intro pq hpq
  obtain ⟨h1, h2⟩ := pairsOf_mem hpq
  rw [if_neg ?_]
  rcases habs with ha | hb
  · rintro (⟨e1, e2⟩ | ⟨e1, e2⟩)
    · exact ha pq.1 h1 e1
    · exact ha pq.2 h2 e2
  · rintro (⟨e1, e2⟩ | ⟨e1, e2⟩)
    · exact hb pq.2 h2 e2
    · exact hb pq.1 h1 e1

theorem pairsOf_hit_sum_zero_nat (L : List (Nat × ℚ)) (uA uB : Nat)
    (f : (Nat × ℚ) × (Nat × ℚ) → Nat)
    (habs : (∀ p ∈ L, p.1 ≠ uA) ∨ (∀ p ∈ L, p.1 ≠ uB)) :
    ((pairsOf L).map (fun pq =>
        if (pq.1.1 = uA ∧ pq.2.1 = uB) ∨ (pq.1.1 = uB ∧ pq.2.1 = uA)
        then f pq else 0)).sum = 0 := by
  apply sum_map_zero_nat
  intro pq hpq
  obtain ⟨h1, h2⟩ := pairsOf_mem hpq
  rw [if_neg ?_]
  rcases habs with ha | hb
  · rintro (⟨e1, e2⟩ | ⟨e1, e2⟩)
    · exact ha pq.1 h1 e1
    · exact ha pq.2 h2 e2
  · rintro (⟨e1, e2⟩ | ⟨e1, e2⟩)
    · exact hb pq.2 h2 e2
    · exact hb pq.1 h1 e1

theorem pairsOf_sum_prod (uA uB : Nat) (hne : uA ≠ uB) :
    ∀ (L : List (Nat × ℚ)), (L.map Prod.fst).Nodup →
    ((pairsOf L).map (fun pq : (Nat × ℚ) × (Nat × ℚ) =>
        if (pq.1.1 = uA ∧ pq.2.1 = uB) ∨ (pq.1.1 = uB ∧ pq.2.1 = uA)
        then pq.1.2 * pq.2.2 else 0)).sum
      = match alookup L uA, alookup L uB with
        | some rA, some rB => rA * rB
        | _, _ => 0 := by
  intro L
  induction L with
  | nil => intro hnd; rfl
  | cons x xs ih =>
    intro hnd
    have hnd2 : (xs.map Prod.fst).Nodup := (List.nodup_cons.mp hnd).2
    have hp1 : x.1 ∉ xs.map Prod.fst := (List.nodup_cons.mp hnd).1
    rw [pairsOf, List.map_append, List.sum_append, List.map_map]
    by_cases hxA : x.1 = uA
    · have habs : ∀ p ∈ xs, p.1 ≠ uA := by
        intro p hp e
        apply hp1
        rw [hxA, ← e]
        exact List.mem_map.mpr ⟨p, hp, rfl⟩
      have hsum1 : (xs.map ((fun pq : (Nat × ℚ) × (Nat × ℚ) =>
          if (pq.1.1 = uA ∧ pq.2.1 = uB) ∨ (pq.1.1 = uB ∧ pq.2.1 = uA)
          then pq.1.2 * pq.2.2 else 0) ∘ (fun y => (x, y)))).sum
          = (xs.map (fun p => if p.1 = uB then (fun r => x.2 * r) p.2 else 0)).sum := by
        congr 1
        apply List.map_congr_left
        intro y hy
        dsimp only [Function.comp]
        by_cases hyB : y.1 = uB
        · rw [if_pos (Or.inl ⟨hxA, hyB⟩), if_pos hyB]
        · have hcond : ¬((x.1 = uA ∧ y.1 = uB) ∨ (x.1 = uB ∧ y.1 = uA)) := by
            rintro (⟨e1, e2⟩ | ⟨e1, e2⟩)
            · exact hyB e2
            · exact hne (hxA.symm.trans e1)
          rw [if_neg hcond, if_neg hyB]
      have hz : ((pairsOf xs).map (fun pq : (Nat × ℚ) × (Nat × ℚ) =>
          if (pq.1.1 = uA ∧ pq.2.1 = uB) ∨ (pq.1.1 = uB ∧ pq.2.1 = uA)
          then pq.1.2 * pq.2.2 else 0)).sum = 0 :=
        pairsOf_hit_sum_zero xs uA uB (fun pq => pq.1.2 * pq.2.2) (Or.inl habs)
      rw [hsum1, hz, sum_filter_key xs uB (fun r => x.2 * r) hnd2,
        show alookup (x :: xs) uA = some x.2 from by simp [alookup, hxA],
        show alookup (x :: xs) uB = alookup xs uB from by simp [alookup, hxA, hne]]
      cases alookup xs uB with
      | none => rw [add_zero]
      | some rB => rw [add_zero]
    · by_cases hxB : x.1 = uB
      · have habs : ∀ p ∈ xs, p.1 ≠ uB := by
          intro p hp e
          apply hp1
          rw [hxB, ← e]
          exact List.mem_map.mpr ⟨p, hp, rfl⟩
        have hsum1 : (xs.map ((fun pq : (Nat × ℚ) × (Nat × ℚ) =>
            if (pq.1.1 = uA ∧ pq.2.1 = uB) ∨ (pq.1.1 = uB ∧ pq.2.1 = uA)
            then pq.1.2 * pq.2.2 else 0) ∘ (fun y => (x, y)))).sum
            = (xs.map (fun p => if p.1 = uA then (fun r => x.2 * r) p.2 else 0)).sum := by
          congr 1
          apply List.map_congr_left
          intro y hy
          dsimp only [Function.comp]
          by_cases hyA : y.1 = uA
          · rw [if_pos (Or.inr ⟨hxB, hyA⟩), if_pos hyA]
          · have hcond : ¬((x.1 = uA ∧ y.1 = uB) ∨ (x.1 = uB ∧ y.1 = uA)) := by
              rintro (⟨e1, e2⟩ | ⟨e1, e2⟩)
              · exact hxA e1
              · exact hyA e2
            rw [if_neg hcond, if_neg hyA]
        have hz : ((pairsOf xs).map (fun pq : (Nat × ℚ) × (Nat × ℚ) =>
            if (pq.1.1 = uA ∧ pq.2.1 = uB) ∨ (pq.1.1 = uB ∧ pq.2.1 = uA)
            then pq.1.2 * pq.2.2 else 0)).sum = 0 :=
          pairsOf_hit_sum_zero xs uA uB (fun pq => pq.1.2 * pq.2.2) (Or.inr habs)
        rw [hsum1, hz, sum_filter_key xs uA (fun r => x.2 * r) hnd2,
          show alookup (x :: xs) uA = alookup xs uA from by simp [alookup, hxA],
          show alookup (x :: xs) uB = some x.2 from by simp [alookup, hxB]]
        cases alookup xs uA with
        | none => rw [add_zero]
        | some rA =>
          rw [add_zero]
          exact mul_comm x.2 rA
      · have hsum1 : (xs.map ((fun pq : (Nat × ℚ) × (Nat × ℚ) =>
            if (pq.1.1 = uA ∧ pq.2.1 = uB) ∨ (pq.1.1 = uB ∧ pq.2.1 = uA)
            then pq.1.2 * pq.2.2 else 0) ∘ (fun y => (x, y)))).sum = 0 := by
          apply sum_map_zero
          intro y hy
          dsimp only [Function.comp]
          rw [if_neg ?_]
          rintro (⟨e1, e2⟩ | ⟨e1, e2⟩)
          · exact hxA e1
          · exact hxB e1
        rw [hsum1, zero_add, ih hnd2,
          show alookup (x :: xs) uA = alookup xs uA from by simp [alookup, hxA],
          show alookup (x :: xs) uB = alookup xs uB from by simp [alookup, hxB]]

theorem pairsOf_sum_count (uA uB : Nat) (hne : uA ≠ uB) :
    ∀ (L : List (Nat × ℚ)), (L.map Prod.fst).Nodup →
    ((pairsOf L).map (fun pq : (Nat × ℚ) × (Nat × ℚ) =>
        if (pq.1.1 = uA ∧ pq.2.1 = uB) ∨ (pq.1.1 = uB ∧ pq.2.1 = uA)
        then (1 : Nat) else 0)).sum
      = match alookup L uA, alookup L uB with
        | some _, some _ => (1 : Nat)
        | _, _ => 0 := by
  intro L
  induction L with
  | nil => intro hnd; rfl
  | cons x xs ih =>
    intro hnd
    have hnd2 : (xs.map Prod.fst).Nodup := (List.nodup_cons.mp hnd).2
    have hp1 : x.1 ∉ xs.map Prod.fst := (List.nodup_cons.mp hnd).1
    rw [pairsOf, List.map_append, List.sum_append, List.map_map]
    by_cases hxA : x.1 = uA
    · have habs : ∀ p ∈ xs, p.1 ≠ uA := by
        intro p hp e
        apply hp1
        rw [hxA, ← e]
        exact List.mem_map.mpr ⟨p, hp, rfl⟩
      have hsum1 : (xs.map ((fun pq : (Nat × ℚ) × (Nat × ℚ) =>
          if (pq.1.1 = uA ∧ pq.2.1 = uB) ∨ (pq.1.1 = uB ∧ pq.2.1 = uA)
          then (1 : Nat) else 0) ∘ (fun y => (x, y)))).sum
          = (xs.map (fun p => if p.1 = uB then (1 : Nat) else 0)).sum := by
        congr 1
        apply List.map_congr_left
        intro y hy
        dsimp only [Function.comp]
        by_cases hyB : y.1 = uB
        · rw [if_pos (Or.inl ⟨hxA, hyB⟩), if_pos hyB]
        · have hcond : ¬((x.1 = uA ∧ y.1 = uB) ∨ (x.1 = uB ∧ y.1 = uA)) := by
            rintro (⟨e1, e2⟩ | ⟨e1, e2⟩)
            · exact hyB e2
            · exact hne (hxA.symm.trans e1)
          rw [if_neg hcond, if_neg hyB]
      have hz : ((pairsOf xs).map (fun pq : (Nat × ℚ) × (Nat × ℚ) =>
          if (pq.1.1 = uA ∧ pq.2.1 = uB) ∨ (pq.1.1 = uB ∧ pq.2.1 = uA)
          then (1 : Nat) else 0)).sum = 0 :=
        pairsOf_hit_sum_zero_nat xs uA uB (fun pq => 1) (Or.inl habs)
      rw [hsum1, hz, sum_filter_key_nat xs uB hnd2,
        show alookup (x :: xs) uA = some x.2 from by simp [alookup, hxA],
        show alookup (x :: xs) uB = alookup xs uB from by simp [alookup, hxA, hne]]
      cases alookup xs uB with
      | none => rfl
      | some rB => rfl
    · by_cases hxB : x.1 = uB
      · have habs : ∀ p ∈ xs, p.1 ≠ uB := by
          intro p hp e
          apply hp1
          rw [hxB, ← e]
          exact List.mem_map.mpr ⟨p, hp, rfl⟩
        have hsum1 : (xs.map ((fun pq : (Nat × ℚ) × (Nat × ℚ) =>
            if (pq.1.1 = uA ∧ pq.2.1 = uB) ∨ (pq.1.1 = uB ∧ pq.2.1 = uA)
            then (1 : Nat) else 0) ∘ (fun y => (x, y)))).sum
            = (xs.map (fun p => if p.1 = uA then (1 : Nat) else 0)).sum := by
          congr 1
          apply List.map_congr_left
          intro y hy
          dsimp only [Function.comp]
          by_cases hyA : y.1 = uA
          · rw [if_pos (Or.inr ⟨hxB, hyA⟩), if_pos hyA]
          · have hcond : ¬((x.1 = uA ∧ y.1 = uB) ∨ (x.1 = uB ∧ y.1 = uA)) := by
              rintro (⟨e1, e2⟩ | ⟨e1, e2⟩)
              · exact hxA e1
              · exact hyA e2
            rw [if_neg hcond, if_neg hyA]
        have hz : ((pairsOf xs).map (fun pq : (Nat × ℚ) × (Nat × ℚ) =>
            if (pq.1.1 = uA ∧ pq.2.1 = uB) ∨ (pq.1.1 = uB ∧ pq.2.1 = uA)
            then (1 : Nat) else 0)).sum = 0 :=
          pairsOf_hit_sum_zero_nat xs uA uB (fun pq => 1) (Or.inr habs)
        rw [hsum1, hz, sum_filter_key_nat xs uA hnd2,
          show alookup (x :: xs) uA = alookup xs uA from by simp [alookup, hxA],
          show alookup (x :: xs) uB = some x.2 from by simp [alookup, hxB]]
        cases alookup xs uA with
        | none => rfl
        | some rA => rfl
      · have hsum1 : (xs.map ((fun pq : (Nat × ℚ) × (Nat × ℚ) =>
            if (pq.1.1 = uA ∧ pq.2.1 = uB) ∨ (pq.1.1 = uB ∧ pq.2.1 = uA)
            then (1 : Nat) else 0) ∘ (fun y => (x, y)))).sum = 0 := by
          apply sum_map_zero_nat
          intro y hy
          dsimp only [Function.comp]
          rw [if_neg ?_]
          rintro (⟨e1, e2⟩ | ⟨e1, e2⟩)
          · exact hxA e1
          · exact hxB e1
        rw [hsum1, Nat.zero_add, ih hnd2,
          show alookup (x :: xs) uA = alookup xs uA from by simp [alookup, hxA],
          show alookup (x :: xs) uB = alookup xs uB from by simp [alookup, hxB]]

theorem dotAccum_fold (μ : ℚ) (ub : List (Nat × ℚ)) (ib : List ℚ) (st : Store)
    (uA uB : Nat) (h : uA < uB) :
    ∀ (I : List Nat) (d : List ((Nat × Nat) × ℚ × Nat)),
    dotGet (I.foldl
        (fun d i => (pairsOf (itemRaters μ ub ib st i)).foldl dotStep d) d) (uA, uB)
      = ((dotGet d (uA, uB)).1
          + (I.map (fun i => ((pairsOf (itemRaters μ ub ib st i)).map
              (fun pq : (Nat × ℚ) × (Nat × ℚ) =>
                if (pq.1.1 = uA ∧ pq.2.1 = uB) ∨ (pq.1.1 = uB ∧ pq.2.1 = uA)
                then pq.1.2 * pq.2.2 else 0)).sum)).sum,
         (dotGet d (uA, uB)).2
          + (I.map (fun i => ((pairsOf (itemRaters μ ub ib st i)).map
              (fun pq : (Nat × ℚ) × (Nat × ℚ) =>
                if (pq.1.1 = uA ∧ pq.2.1 = uB) ∨ (pq.1.1 = uB ∧ pq.2.1 = uA)
                then (1 : Nat) else 0)).sum)).sum) := by
  intro I
  induction I with
  | nil => intro d; simp
  | cons i t ih =>
    intro d
    rw [List.foldl_cons, ih, dotStep_fold (pairsOf (itemRaters μ ub ib st i)) d uA uB h]
    dsimp only
    rw [List.map_cons, List.sum_cons, List.map_cons, List.sum_cons,
      add_assoc, add_assoc]

theorem dotAccum_spec (recs : List (Nat × Nat × ℚ)) (uA uB : Nat) (h : uA < uB) :
    dotGet (dotABOf recs) (uA, uB)
      = (((List.range' 1 (ingestAll recs).maxItemId).map (fun i =>
            match ratedBy (ingestAll recs).store uA i,
                  ratedBy (ingestAll recs).store uB i with
            | some rA, some rB =>
                residualAt recs uA i rA * residualAt recs uB i rB
            | _, _ => 0)).sum,
         ((List.range' 1 (ingestAll recs).maxItemId).map (fun i =>
            match ratedBy (ingestAll recs).store uA i,
                  ratedBy (ingestAll recs).store uB i with
            | some _, some _ => (1 : Nat)
            | _, _ => 0)).sum) := by
  have hfold := dotAccum_fold (globalMeanOf (ingestAll recs)) (biasesOf recs).1
    (biasesOf recs).2 (ingestAll recs).store uA uB h
    (List.range' 1 (ingestAll recs).maxItemId) []
  unfold dotABOf dotAccum
  rw [hfold, show dotGet [] (uA, uB) = ((0 : ℚ), (0 : Nat)) from rfl]
  dsimp only
  rw [zero_add, Nat.zero_add, Prod.mk.injEq]
  constructor
  · congr 1
    apply List.map_congr_left
    intro i hi
    rw [pairsOf_sum_prod uA uB (Nat.ne_of_lt h) _
      ((itemRaters_fst_sublist (globalMeanOf (ingestAll recs)) (biasesOf recs).1
        (biasesOf recs).2 (ingestAll recs).store i).nodup (ingest_WF recs).1),
      alookup_itemRaters _ _ _ _ i uA (ingest_WF recs).1,
      alookup_itemRaters _ _ _ _ i uB (ingest_WF recs).1]
    cases ratedBy (ingestAll recs).store uA i with
    | none =>
      cases ratedBy (ingestAll recs).store uB i with
      | none => rfl
      | some rB => rfl
    | some rA =>
      cases ratedBy (ingestAll recs).store uB i with
      | none => rfl
      | some rB => rfl
  · congr 1
    apply List.map_congr_left
    intro i hi
    rw [pairsOf_sum_count uA uB (Nat.ne_of_lt h) _
      ((itemRaters_fst_sublist (globalMeanOf (ingestAll recs)) (biasesOf recs).1
        (biasesOf recs).2 (ingestAll recs).store i).nodup (ingest_WF recs).1),
      alookup_itemRaters _ _ _ _ i uA (ingest_WF recs).1,
      alookup_itemRaters _ _ _ _ i uB (ingest_WF recs).1]
    cases ratedBy (ingestAll recs).store uA i with
    | none =>
      cases ratedBy (ingestAll recs).store uB i with
      | none => rfl
      | some rB => rfl
    | some rA =>
      cases ratedBy (ingestAll recs).store uB i with
      | none => rfl
      | some rB => rfl

/-- Claim C1 (corrected): the similarity stage's accumulation ranges over item
ids in `[1, maxItemId]` only — both similarity-stage loops start at
`i = 1` — so item id 0 is excluded.  Over that range the claim's bookkeeping
is exact: for users `uA < uB`, the pair accumulator keyed `(uA, uB)` holds the
sum of `residualA * residualB` over the co-rated items and the co-rating
count, and each user's magnitude is the sum of squared residuals over the
items of `[1, maxItemId]` they rated. -/
theorem similarityStage_accumulation_range_one_to_max
    (recs : List (Nat × Nat × ℚ)) (uA uB : Nat) (h : uA < uB) :
    (dotGet (dotABOf recs) (uA, uB)).1
      = ((List.range' 1 (ingestAll recs).maxItemId).map (fun i =>
          match ratedBy (ingestAll recs).store uA i,
                ratedBy (ingestAll recs).store uB i with
          | some rA, some rB => residualAt recs uA i rA * residualAt recs uB i rB
          | _, _ => 0)).sum
    ∧ (dotGet (dotABOf recs) (uA, uB)).2
      = ((List.range' 1 (ingestAll recs).maxItemId).map (fun i =>
          match ratedBy (ingestAll recs).store uA i,
                ratedBy (ingestAll recs).store uB i with
          | some _, some _ => (1 : Nat)
          | _, _ => 0)).sum
    ∧ ∀ u, aget0 (magMapOf recs) u
      = ((List.range' 1 (ingestAll recs).maxItemId).map (fun i =>
          match ratedBy (ingestAll recs).store u i with
          | some r => residualAt recs u i r * residualAt recs u i r
          | none => 0)).sum := by
  refine ⟨?_, ?_, fun u => magnitude_spec recs u⟩
  · rw [dotAccum_spec recs uA uB h]
  · rw [dotAccum_spec recs uA uB h]

theorem similarityStage_accumulation_witness :
    (1 : Nat) < 2
    ∧ (dotGet (dotABOf [(1, 1, 4), (2, 1, (5 : ℚ))]) (1, 2)).2
      = ((List.range' 1 (ingestAll [(1, 1, 4), (2, 1, (5 : ℚ))]).maxItemId).map
          (fun i =>
            match ratedBy (ingestAll [(1, 1, 4), (2, 1, (5 : ℚ))]).store 1 i,
                  ratedBy (ingestAll [(1, 1, 4), (2, 1, (5 : ℚ))]).store 2 i with
            | some _, some _ => (1 : Nat)
            | _, _ => 0)).sum :=
  ⟨by decide,
   (similarityStage_accumulation_range_one_to_max [(1, 1, 4), (2, 1, (5 : ℚ))]
     1 2 (by decide)).2.1⟩

/-- Claim C1, counterexample to the original statement: under training
`recs02 = [(1,0,5),(2,0,1)]` both users rate item 0 and user 1's residual
there is nonzero, yet the dot-product and magnitude accumulators stay
completely empty, because the loops of lines 150 and 159 start at item 1 and
`maxItemId = 0` here: the rated item 0 is excluded from the accumulation. -/
theorem similarityStage_skips_item_zero :
    (ratedBy (ingestAll recs02).store 1 0).isSome = true
    ∧ (ratedBy (ingestAll recs02).store 2 0).isSome = true
    ∧ residualAt recs02 1 0 5 ≠ 0
    ∧ dotABOf recs02 = []
    ∧ magMapOf recs02 = []
    ∧ dotGet (dotABOf recs02) (1, 2) = (0, 0)
    ∧ aget0 (magMapOf recs02) 1 = 0 :=
  ⟨rfl, rfl, by with_unfolding_all decide, rfl, rfl, rfl, rfl⟩
